import Mathlib

/-!
HnR cleanup workflow (`main.go`).

A shallow embedding of the scrape-parse-delete workflow of `main.go`:

* the parsed page (`*goquery.Document`) is a rose tree of nodes; a node is identified by the
  path of child indices leading to it from the document node, so a goquery `Selection`
  is a list of paths;
* the selector queries used by the program (`Find`, `Parent`, `FilterFunction`, `Text`,
  `Attr`, `Each`) are functions on such lists;
* the three extractors and the submitter are pure functions;
* the driver `cleanHnRTorrents` threads an explicit state of the outside world through
  the proxy and webhook calls and returns the trace of what it did.
-/

namespace HnR

/-! ## Pages -/

/-- A node of a parsed page: character data, a node without text content or children
(comment, doctype), or an element with its tag, its attributes in source order and its
children. -/
inductive Node where
  | text (data : String)
  | other (data : String)
  | element (tag : String) (attr : List (String × String)) (kids : List Node)

/-- A parsed page: the children of the document node. -/
abbrev Document := List Node

/-- The child indices leading from the document node to a node; `[]` is the document
node itself. -/
abbrev Path := List Nat

/-- A goquery selection: nodes in the order the selection holds them. -/
abbrev Selection := List Path

/-- Children of a node (`FirstChild`, `NextSibling`, ...). -/
def Node.kids : Node → List Node
  | .element _ _ ks => ks
  | _ => []

/-- Whether the node has type `html.ElementNode`. -/
def Node.isElement : Node → Bool
  | .element _ _ _ => true
  | _ => false

/-- Attributes of a node (`n.Attr`). -/
def Node.attrs : Node → List (String × String)
  | .element _ as _ => as
  | _ => []

/-- The node a non-empty path leads to, looked up among the nodes `ns`. -/
def getNode : List Node → Path → Option Node
  | _, [] => none
  | ns, i :: rest =>
    match ns[i]? with
    | none => none
    | some n => if rest.isEmpty then some n else getNode n.kids rest

/-- Children of the node at a path, the document node included. -/
def kidsAt (doc : Document) (p : Path) : List Node :=
  if p.isEmpty then doc
  else match getNode doc p with
    | some n => n.kids
    | none => []

mutual
/-- Text content of a node: `getNodeText` of goquery, `nodeText` of cascadia. -/
def nodeText : Node → String
  | .text d => d
  | .other _ => ""
  | .element _ _ ks => nodesText ks
/-- Concatenated text content of a list of siblings. -/
def nodesText : List Node → String
  | [] => ""
  | k :: ks => nodeText k ++ nodesText ks
end

/-- Text content of the node at a path (the empty string when there is none). -/
def textAt (doc : Document) (p : Path) : String :=
  match getNode doc p with
  | some n => nodeText n
  | none => ""

/-- Model of `getAttributeValue`: the value of the first attribute with the given key. -/
def getAttributeValue (name : String) : List (String × String) → Option String
  | [] => none
  | (k, v) :: rest => if k = name then some v else getAttributeValue name rest

/-! ## Strings -/

/-- Model of `unicode.IsSpace`. -/
def isSpace (c : Char) : Bool :=
  let n := c.toNat
  (9 ≤ n && n ≤ 13) || n = 32 || n = 0x85 || n = 0xA0 || n = 0x1680 ||
  (0x2000 ≤ n && n ≤ 0x200A) || n = 0x2028 || n = 0x2029 || n = 0x202F ||
  n = 0x205F || n = 0x3000

/-- Model of `strings.TrimSpace`: drop leading and trailing white space. -/
def trimSpace (s : String) : String :=
  ⟨((s.data.dropWhile isSpace).reverse.dropWhile isSpace).reverse⟩

/-- Whether `pre` starts `s`. -/
def hasPrefix : List Char → List Char → Bool
  | [], _ => true
  | _ :: _, [] => false
  | a :: as, b :: bs => a == b && hasPrefix as bs

/-- Model of `strings.Contains` on character lists. -/
def containsChars (sub : List Char) : List Char → Bool
  | [] => sub.isEmpty
  | c :: cs => hasPrefix sub (c :: cs) || containsChars sub cs

/-- Lower-casing used by `:contains`. Only the ASCII letters are mapped: the one needle the
program searches for has no cased character, and no other character lower-cases to one of
its characters, so the outcome of the search is that of `strings.ToLower`. -/
def lowerChars (cs : List Char) : List Char := cs.map Char.toLower

/-- The separators cascadia splits a `class` attribute on. -/
def isClassSep (c : Char) : Bool :=
  c = ' ' || c = '\t' || c = '\r' || c = '\n' || c.toNat = 12

/-- The loop of `matchInclude`: `field` holds, reversed, the characters read since the last
separator. A field that a separator ends is compared with `val`; the last field is compared
when it is not empty. -/
def matchIncludeFrom (val : List Char) : List Char → List Char → Bool
  | field, [] => !field.isEmpty && field.reverse == val
  | field, c :: cs =>
    if isClassSep c then field.reverse == val || matchIncludeFrom val [] cs
    else matchIncludeFrom val (c :: field) cs

/-- Model of `matchInclude`: one of the white-space separated fields of `s` is `val`. -/
def matchInclude (val : String) (s : String) : Bool :=
  matchIncludeFrom val.data [] s.data

/-! ## Selectors (cascadia) -/

/-- The selectors the program uses. -/
inductive Sel where
  /-- Type selector `td`. -/
  | tag (t : String)
  /-- Class selector `.thead`. -/
  | cls (c : String)
  /-- Attribute selector `[name='delhnr']`. -/
  | attrEq (key val : String)
  /-- Pseudo-class `:nth-child(b)`. -/
  | nthChild (b : Nat)
  /-- Pseudo-class `:contains('...')`, the argument already lower-cased. -/
  | containsText (s : String)
  /-- Compound selector `a.b`. -/
  | both (a b : Sel)
  /-- Descendant combinator: `anc d`. -/
  | desc (anc d : Sel)

/-- The proper ancestors of a node, nearest first, the document node last: the walk
`for p := n.Parent; p != nil; p = p.Parent`. -/
def ancestors (p : Path) : List Path :=
  (List.range p.length).map (fun k => p.take (p.length - 1 - k))

/-- Model of `simpleNthChildMatch b false n`: the node is an element, its parent is not the
document node, and it is the `b`-th element among the children of its parent. -/
def nthChildMatch (doc : Document) (b : Nat) (p : Path) : Bool :=
  match getNode doc p with
  | some (.element _ _ _) =>
    let parent := p.dropLast
    if parent.isEmpty then false
    else
      match p.getLast? with
      | none => false
      | some i => (((kidsAt doc parent).take (i + 1)).filter Node.isElement).length == b
  | _ => false

/-- Model of `Matcher.Match`: whether the node at path `p` matches the selector. The
document node, at the path `[]`, is no element and has the empty text. -/
def Sel.matchAt (doc : Document) : Sel → Path → Bool
  | .tag t, p =>
    match getNode doc p with
    | some (.element t' _ _) => t' == t
    | _ => false
  | .cls c, p =>
    match getNode doc p with
    | some (.element _ as _) => as.any (fun a => a.1 == "class" && matchInclude c a.2)
    | _ => false
  | .attrEq key val, p =>
    match getNode doc p with
    | some (.element _ as _) => as.any (fun a => a.1 == key && a.2 == val)
    | _ => false
  | .nthChild b, p => nthChildMatch doc b p
  | .containsText s, p => containsChars s.data (lowerChars (textAt doc p).data)
  | .both a b, p => a.matchAt doc p && b.matchAt doc p
  | .desc anc d, p => d.matchAt doc p && (ancestors p).any (fun q => anc.matchAt doc q)

/-! ## Selections (goquery) -/

mutual
/-- Model of `Matcher.MatchAll n`: the matching nodes of the subtree of `n`, `n` included,
in pre-order. `p` is the path of `n`. -/
def matchAll (m : Path → Bool) : Path → Node → List Path
  | p, .element _ _ ks => (if m p then [p] else []) ++ matchAllKids m p 0 ks
  | p, .text _ => if m p then [p] else []
  | p, .other _ => if m p then [p] else []
/-- The matching nodes of the subtrees of the children `ks` of the node at `p`, the first of
which has index `i`. -/
def matchAllKids (m : Path → Bool) : Path → Nat → List Node → List Path
  | _, _, [] => []
  | p, i, k :: ks => matchAll m (p ++ [i]) k ++ matchAllKids m p (i + 1) ks
end

/-- The loop of `findWithMatcher` over the children of one node: `MatchAll` of every child
that is an element. -/
def findKids (m : Path → Bool) (p : Path) : Nat → List Node → List Path
  | _, [] => []
  | i, k :: ks =>
    (if k.isElement then matchAll m (p ++ [i]) k else []) ++ findKids m p (i + 1) ks

/-- Model of `appendWithoutDuplicates`: append the nodes not yet in the target. -/
def appendWithoutDuplicates (target : Selection) : Selection → Selection
  | [] => target
  | n :: ns =>
    if n ∈ target then appendWithoutDuplicates target ns
    else appendWithoutDuplicates (target ++ [n]) ns

/-- Model of `mapNodes`: map every node of a selection to a list of nodes and collect them
without duplicates. -/
def mapNodes (f : Path → List Path) (nodes : Selection) : Selection :=
  nodes.foldl (fun result n => appendWithoutDuplicates result (f n)) []

/-- Model of `Selection.Find`: the descendants of the selected nodes that match. -/
def find (doc : Document) (s : Selection) (sel : Sel) : Selection :=
  mapNodes (fun n => findKids (sel.matchAt doc) n 0 (kidsAt doc n)) s

/-- Model of `Selection.Parent`: the parents that are elements. -/
def parent (s : Selection) : Selection :=
  mapNodes (fun n => if 2 ≤ n.length then [n.dropLast] else []) s

/-- Model of `Selection.Text`: the concatenated text contents of the selected nodes. -/
def selText (doc : Document) : Selection → String
  | [] => ""
  | n :: ns => textAt doc n ++ selText doc ns

/-- Model of `Selection.Attr`: the attribute of the first selected node. -/
def selAttr (doc : Document) (name : String) : Selection → Option String
  | [] => none
  | n :: _ =>
    match getNode doc n with
    | some nd => getAttributeValue name nd.attrs
    | none => none

/-- The selection of a document: the document node. -/
def docSel : Selection := [[]]

/-! ## The cleaner -/

/-- The Telegram log service: `TelegramLogService`. -/
structure TelegramLogService where
  ServiceURL : String
  BotName : String

/-- The cleaner and its configuration: `HnRCleaner`. -/
structure HnRCleaner where
  BaseURL : String
  ProxyHost : String
  TelegramLog : TelegramLogService

/-- The envelope the proxy answers with: `ProxyResponse`. -/
structure ProxyResponse where
  Error : String
  ErrorCode : Int
  Content : String

/-- Model of `NewHnRCleaner`. -/
def NewHnRCleaner (baseURL proxyHost telegramServiceURL botName : String) : HnRCleaner :=
  ⟨baseURL, proxyHost, ⟨telegramServiceURL, botName⟩⟩

/-- A Go `map[string]string`, kept as a list of bindings with distinct keys. The order of the
list has no counterpart in Go and nothing below depends on it. -/
abbrev FormMap := List (String × String)

/-- Model of `m[k] = v`. -/
def mapSet (k v : String) : FormMap → FormMap
  | [] => [(k, v)]
  | (k', v') :: rest => if k' = k then (k, v) :: rest else (k', v') :: mapSet k v rest

/-- Model of `v, ok := m[k]`. -/
def mapGet (k : String) : FormMap → Option String
  | [] => none
  | (k', v') :: rest => if k' = k then some v' else mapGet k rest

/-- The keys of a map. -/
def mapKeys (m : FormMap) : List String := m.map Prod.fst

/-! ### Extractors -/

/-- The selector `table .thead:contains('היסטוריית העלאה/הורדה')`. -/
def headerSel : Sel :=
  .desc (.tag "table") (.both (.cls "thead") (.containsText "היסטוריית העלאה/הורדה"))

/-- The rows `extractHnRTitles` visits:
`doc.Find(header).Parent().Parent().Find("tr")`. -/
def historyRows (doc : Document) : Selection :=
  find doc (parent (parent (find doc docSel headerSel))) (.tag "tr")

/-- The text the row test reads: `tr.Find("td:nth-child(9)").Text()`. -/
def cell9Text (doc : Document) (tr : Path) : String :=
  selText doc (find doc [tr] (.both (.tag "td") (.nthChild 9)))

/-- The marker selection of a row: `tr.Find(".threadlink")`. -/
def threadLinks (doc : Document) (tr : Path) : Selection :=
  find doc [tr] (.cls "threadlink")

/-- The body of the `Each` callback of `extractHnRTitles` for one row. -/
def rowStep (c : HnRCleaner) (doc : Document) (hrefs : List String) (tr : Path) :
    List String :=
  if cell9Text doc tr = "Yes" then
    let threadLink := threadLinks doc tr
    if threadLink.length > 0 then
      match selAttr doc "href" threadLink with
      | some href => hrefs ++ [c.BaseURL ++ "/" ++ href]
      | none => hrefs
    else hrefs
  else hrefs

/-- The loop `Each` over a selection of rows, starting from the URLs collected so far. -/
def eachRow (c : HnRCleaner) (doc : Document) (rows : Selection) (hrefs : List String) :
    List String :=
  rows.foldl (rowStep c doc) hrefs

/-- Model of `extractHnRTitles`. -/
def extractHnRTitles (c : HnRCleaner) (doc : Document) : List String :=
  eachRow c doc (historyRows doc) []

/-- The label of the delete link. -/
def deleteLabel : String := "מחק"

/-- The filtered selection of `extractDeleteLink`:
`doc.Find("a").FilterFunction(TrimSpace(s.Text()) == "מחק")`. -/
def deleteLinks (doc : Document) : Selection :=
  (find doc docSel (.tag "a")).filter (fun s => trimSpace (selText doc [s]) = deleteLabel)

/-- Model of `extractDeleteLink`. -/
def extractDeleteLink (c : HnRCleaner) (doc : Document) : Except String String :=
  match selAttr doc "href" (deleteLinks doc) with
  | none => .error "no 'מחק' link found"
  | some href => .ok (c.BaseURL ++ "/" ++ href)

/-- The selector `form[name='delhnr'] input[type='hidden']`. -/
def formSel : Sel :=
  .desc (.both (.tag "form") (.attrEq "name" "delhnr"))
    (.both (.tag "input") (.attrEq "type" "hidden"))

/-- The selection `extractFormDetails` iterates over. -/
def hiddenInputs (doc : Document) : Selection := find doc docSel formSel

/-- Model of `name, _ := input.Attr(...)`: the attribute, or the empty string. -/
def attrOrEmpty (doc : Document) (name : String) (input : Path) : String :=
  (selAttr doc name [input]).getD ""

/-- The body of the `Each` callback of `extractFormDetails` for one input. -/
def formStep (doc : Document) (formDetails : FormMap) (input : Path) : FormMap :=
  mapSet (attrOrEmpty doc "name" input) (attrOrEmpty doc "value" input) formDetails

/-- Model of `extractFormDetails`. -/
def extractFormDetails (doc : Document) : Except String FormMap :=
  let formDetails := (hiddenInputs doc).foldl (formStep doc) []
  if formDetails.length = 0 then .error "no form details found" else .ok formDetails

/-! ### The outside world -/

/-- What an HTTP exchange with the proxy comes to, once the body has been decoded. -/
inductive HttpReply where
  /-- The request failed (`http.Get`, `client.Do`). -/
  | transportErr (e : String)
  /-- The body is not a JSON envelope. -/
  | decodeErr (e : String)
  /-- The decoded envelope. -/
  | envelope (r : ProxyResponse)

/-- What a post to the log service comes to. -/
inductive WebhookReply where
  /-- The call of `http.Post` failed. -/
  | sendErr (e : String)
  /-- The status code of the response. -/
  | status (code : Int)

/-- What the cleaner does that can be seen from outside. -/
inductive Event where
  /-- Model of `http.Get(proxyURL)`. -/
  | proxyGet (proxyURL : String)
  /-- The POST of `sendDeleteRequest`. -/
  | proxyPost (proxyURL : String) (body : String)
  /-- The post of `logToTelegram` to the log service. -/
  | notify (content : String)
  /-- A line written with the package `log`. -/
  | logLine (msg : String)
deriving DecidableEq

/-- The collaborators of the cleaner. `σ` is the state of the outside world; every call
may read and change it. `url.QueryEscape`, `json.Marshal` (which does not fail on a
`map[string]string`), `http.NewRequest` and the HTML parser are library functions taken as
given. -/
structure World (σ : Type) where
  queryEscape : String → String
  marshal : FormMap → String
  newRequestErr : String → Option String
  httpGet : String → σ → HttpReply × σ
  httpPost : String → String → σ → HttpReply × σ
  webhook : TelegramLogService → String → σ → WebhookReply × σ
  parseHTML : String → Except String Document

/-- Model of `logToTelegram`: post the message to the log service; a failure is only logged
(`json.Marshal` does not fail on a `map[string]string`). -/
def logToTelegram {σ : Type} (w : World σ) (c : HnRCleaner) (content : String) (s : σ) :
    List Event × σ :=
  match w.webhook c.TelegramLog content s with
  | (.sendErr e, s1) =>
    ([.notify content, .logLine ("Failed to send log to Telegram: " ++ e)], s1)
  | (.status code, s1) =>
    if code ≠ 200 then
      ([.notify content,
        .logLine ("Non-OK response from Telegram log service: " ++ toString code)], s1)
    else ([.notify content], s1)

/-- The proxy URL of a target: `fmt.Sprintf("%s/?url=%s", c.ProxyHost, encodedURL)`. -/
def proxyURL {σ : Type} (w : World σ) (c : HnRCleaner) (targetURL : String) : String :=
  c.ProxyHost ++ "/?url=" ++ w.queryEscape targetURL

/-- Model of `fetchPageContent`. -/
def fetchPageContent {σ : Type} (w : World σ) (c : HnRCleaner) (targetURL : String) (s : σ) :
    Except String Document × List Event × σ :=
  match w.httpGet (proxyURL w c targetURL) s with
  | (.transportErr e, s1) => (.error e, [.proxyGet (proxyURL w c targetURL)], s1)
  | (.decodeErr e, s1) => (.error e, [.proxyGet (proxyURL w c targetURL)], s1)
  | (.envelope response, s1) =>
    if response.ErrorCode ≠ 200 then
      (.error ("error fetching content: " ++ response.Error),
        [.proxyGet (proxyURL w c targetURL)], s1)
    else (w.parseHTML response.Content, [.proxyGet (proxyURL w c targetURL)], s1)

/-- The target of the delete request. -/
def postURL (c : HnRCleaner) : String := c.BaseURL ++ "/snatchlist.php?do=dodelhnr"

/-- Model of `sendDeleteRequest`: `none` is the `nil` error. -/
def sendDeleteRequest {σ : Type} (w : World σ) (c : HnRCleaner) (formData : FormMap) (s : σ) :
    Option String × List Event × σ :=
  match w.newRequestErr (proxyURL w c (postURL c)) with
  | some e => (some ("error creating POST request: " ++ e), [], s)
  | none =>
    match w.httpPost (proxyURL w c (postURL c)) (w.marshal formData) s with
    | (.transportErr e, s1) =>
      (some ("error sending POST request: " ++ e),
        [.proxyPost (proxyURL w c (postURL c)) (w.marshal formData)], s1)
    | (.decodeErr e, s1) =>
      (some ("error decoding response: " ++ e),
        [.proxyPost (proxyURL w c (postURL c)) (w.marshal formData)], s1)
    | (.envelope response, s1) =>
      if response.ErrorCode ≠ 200 then
        (some ("error in POST request: " ++ response.Error),
          [.proxyPost (proxyURL w c (postURL c)) (w.marshal formData)], s1)
      else (none, [.proxyPost (proxyURL w c (postURL c)) (w.marshal formData)], s1)

/-! ### The driver -/

/-- The variables of the loop of `cleanHnRTorrents`, with the trace so far and the state
of the world. -/
structure Pass (σ : Type) where
  deletedCount : Nat
  events : List Event
  world : σ

/-- The error branch shared by the steps of the loop body: report the message to the log
service, log it, and go on with the next candidate. -/
def reportAndContinue {σ : Type} (w : World σ) (c : HnRCleaner) (st : Pass σ)
    (evs : List Event) (s : σ) (logMsg : String) : Pass σ :=
  ⟨st.deletedCount,
    st.events ++ evs ++ (logToTelegram w c logMsg s).1 ++ [.logLine logMsg],
    (logToTelegram w c logMsg s).2⟩

/-- The body of the loop of `cleanHnRTorrents` for one candidate. -/
def processTitle {σ : Type} (w : World σ) (c : HnRCleaner) (st : Pass σ) (title : String) :
    Pass σ :=
  match fetchPageContent w c title st.world with
  | (.error err, e1, s1) =>
    reportAndContinue w c st e1 s1 ("Error fetching page " ++ title ++ ": " ++ err)
  | (.ok pageDoc, e1, s1) =>
    match extractDeleteLink c pageDoc with
    | .error err =>
      reportAndContinue w c st e1 s1
        ("Error extracting delete link from " ++ title ++ ": " ++ err)
    | .ok deleteLink =>
      match fetchPageContent w c deleteLink s1 with
      | (.error err, e2, s2) =>
        reportAndContinue w c st (e1 ++ e2) s2
          ("Error fetching delete page " ++ deleteLink ++ ": " ++ err)
      | (.ok deletePageDoc, e2, s2) =>
        match extractFormDetails deletePageDoc with
        | .error err =>
          reportAndContinue w c st (e1 ++ e2) s2
            ("Error extracting form details from " ++ deleteLink ++ ": " ++ err)
        | .ok formDetails =>
          match sendDeleteRequest w c formDetails s2 with
          | (some err, e3, s3) =>
            reportAndContinue w c st (e1 ++ e2 ++ e3) s3
              ("Error sending delete request for " ++ deleteLink ++ ": " ++ err)
          | (none, e3, s3) => ⟨st.deletedCount + 1, st.events ++ (e1 ++ e2 ++ e3), s3⟩

/-- The loop of `cleanHnRTorrents` over the candidates. -/
def processTitles {σ : Type} (w : World σ) (c : HnRCleaner) (st : Pass σ)
    (titles : List String) : Pass σ :=
  titles.foldl (processTitle w c) st

/-- The URL of the snatch list. -/
def snatchlistURL (c : HnRCleaner) : String :=
  c.BaseURL ++ "/snatchlist.php?u=14815&type=hnr&order=hnr&sort=desc"

/-- The summary message:
`fmt.Sprintf("HnR cleanup completed. Deleted %d warnings.", deletedCount)`. -/
def summaryMsg (deletedCount : Nat) : String :=
  "HnR cleanup completed. Deleted " ++ toString deletedCount ++ " warnings."

/-- Model of `cleanHnRTorrents`: the returned error (`none` is `nil`), the trace of the pass
and the state of the world after it. -/
def cleanHnRTorrents {σ : Type} (w : World σ) (c : HnRCleaner) (s : σ) :
    Option String × List Event × σ :=
  match fetchPageContent w c (snatchlistURL c) s with
  | (.error err, e0, s0) =>
    (some err, e0 ++ (logToTelegram w c ("Error fetching snatchlist: " ++ err) s0).1,
      (logToTelegram w c ("Error fetching snatchlist: " ++ err) s0).2)
  | (.ok doc, e0, s0) =>
    if (extractHnRTitles c doc).length = 0 then
      (none, e0 ++ (logToTelegram w c "No HnR torrents found." s0).1 ++
          [.logLine "No HnR torrents found."],
        (logToTelegram w c "No HnR torrents found." s0).2)
    else
      let st := processTitles w c ⟨0, [], s0⟩ (extractHnRTitles c doc)
      (none,
        e0 ++ st.events ++ (logToTelegram w c (summaryMsg st.deletedCount) st.world).1 ++
          [.logLine (summaryMsg st.deletedCount)],
        (logToTelegram w c (summaryMsg st.deletedCount) st.world).2)

/-! ## Vocabulary of the properties -/

/-- Document order: `p` comes before `q` in the pre-order traversal of the page (an ancestor
comes before its descendants, an earlier sibling's subtree before a later sibling's). -/
def before : Path → Path → Bool
  | [], [] => false
  | [], _ :: _ => true
  | _ :: _, [] => false
  | a :: as, b :: bs => decide (a < b) || (a == b && before as bs)

mutual
/-- All nodes of the subtree of a node at path `p`, in pre-order. -/
def subtree : Path → Node → List Path
  | p, .element _ _ ks => p :: subtreeKids p 0 ks
  | p, .text _ => [p]
  | p, .other _ => [p]
/-- All nodes of the subtrees of the children `ks` of the node at `p`, the first of which
has index `i`. -/
def subtreeKids : Path → Nat → List Node → List Path
  | _, _, [] => []
  | p, i, k :: ks => subtree (p ++ [i]) k ++ subtreeKids p (i + 1) ks
end

/-- The selector matches elements of the page only. -/
def ElemOnly (doc : Document) (m : Path → Bool) : Prop :=
  ∀ x, m x = true → ∃ t a k, getNode doc x = some (.element t a k)

/-- The node at `x` lies strictly below the node at `r`. -/
def Below (r x : Path) : Prop := ∃ j s, x = r ++ j :: s

/-- The page has at `p` an `a` element whose trimmed text is the delete label. -/
def IsDeleteAnchor (doc : Document) (p : Path) : Prop :=
  ∃ as ks, getNode doc p = some (.element "a" as ks) ∧ trimSpace (nodesText ks) = deleteLabel

/-- The page has at `p` an `input` element with `type="hidden"` below a `form` element with
`name="delhnr"`. -/
def IsHiddenInput (doc : Document) (p : Path) : Prop :=
  ∃ as ks, getNode doc p = some (.element "input" as ks) ∧ ("type", "hidden") ∈ as ∧
    ∃ q fas fks, Below q p ∧ getNode doc q = some (.element "form" fas fks) ∧
      ("name", "delhnr") ∈ fas

/-- The page has at `m`, strictly below the row `r`, an element carrying the marker class
`threadlink`. -/
def IsMarker (doc : Document) (r m : Path) : Prop :=
  Below r m ∧ ∃ t as ks, getNode doc m = some (.element t as ks) ∧
    ∃ a ∈ as, a.1 = "class" ∧ matchInclude "threadlink" a.2 = true

/-- What one visited row adds to the output of `extractHnRTitles`. -/
def rowURL (c : HnRCleaner) (doc : Document) (tr : Path) : Option String :=
  if cell9Text doc tr = "Yes" then
    (selAttr doc "href" (threadLinks doc tr)).map (fun href => c.BaseURL ++ "/" ++ href)
  else none

/-- The messages posted to the log service, in order. -/
def notifications : List Event → List String
  | [] => []
  | .notify content :: es => content :: notifications es
  | _ :: es => notifications es

/-- The requests sent through the proxy, in order. -/
def proxyCalls : List Event → List Event
  | [] => []
  | .proxyGet u :: es => .proxyGet u :: proxyCalls es
  | .proxyPost u b :: es => .proxyPost u b :: proxyCalls es
  | _ :: es => proxyCalls es

/-- All five steps of the loop body succeed for the candidate `title` when the world is in
state `s`: the detail page is fetched, the delete link extracted, the delete page fetched,
the form extracted and the delete request accepted. -/
def StepsSucceed {σ : Type} (w : World σ) (c : HnRCleaner) (title : String) (s : σ) : Prop :=
  ∃ pageDoc e1 s1 deleteLink deletePageDoc e2 s2 formDetails e3 s3,
    fetchPageContent w c title s = (.ok pageDoc, e1, s1) ∧
    extractDeleteLink c pageDoc = .ok deleteLink ∧
    fetchPageContent w c deleteLink s1 = (.ok deletePageDoc, e2, s2) ∧
    extractFormDetails deletePageDoc = .ok formDetails ∧
    sendDeleteRequest w c formDetails s2 = (none, e3, s3)

/-- The processing of one candidate on its own: the loop body run from a fresh counter and
an empty trace. -/
def candidate {σ : Type} (w : World σ) (c : HnRCleaner) (title : String) (s : σ) : Pass σ :=
  processTitle w c ⟨0, [], s⟩ title

/-- The page has at `h` a header cell of the history table: an element with the class `thead`
whose text contains the header and which lies below a `table` element. -/
def IsHeaderCell (doc : Document) (h : Path) : Prop :=
  ∃ t as ks, getNode doc h = some (.element t as ks) ∧
    (∃ a ∈ as, a.1 = "class" ∧ matchInclude "thead" a.2 = true) ∧
    containsChars "היסטוריית העלאה/הורדה".data (lowerChars (nodesText ks).data) = true ∧
    ∃ q tas tks, Below q h ∧ getNode doc q = some (.element "table" tas tks)

/-- The page has at `r` a row of the history table: a `tr` element strictly below the
grandparent element `g` of a header cell. -/
def IsHistoryRow (doc : Document) (r : Path) : Prop :=
  (∃ as ks, getNode doc r = some (.element "tr" as ks)) ∧
    ∃ g i j, g ≠ [] ∧ IsHeaderCell doc (g ++ [i, j]) ∧ Below g r

/-- The candidates processed one after the other, each on its own (`candidate`), the first
from the state `s` of the world and every other from the state the one before it left. -/
def passBlocks {σ : Type} (w : World σ) (c : HnRCleaner) : σ → List String → List (Pass σ)
  | _, [] => []
  | s, t :: ts => candidate w c t s :: passBlocks w c (candidate w c t s).world ts

/-- The first element with the marker class below the row `r`, in document order, carries
the attribute `href` with value `href`. -/
def FirstMarkerHref (doc : Document) (r : Path) (href : String) : Prop :=
  ∃ m t as ks, IsMarker doc r m ∧ (∀ q, IsMarker doc r q → before q m = false) ∧
    getNode doc m = some (.element t as ks) ∧ getAttributeValue "href" as = some href

/-- The number of candidates of a pass whose processing ended with an accepted delete
request. -/
def succeededCount {σ : Type} (w : World σ) (c : HnRCleaner) (s : σ) (titles : List String) :
    Nat :=
  (passBlocks w c s titles).countP (fun b => b.deletedCount = 1)

/-- The answers of the world do not depend on its state: the same request gets the same
answer whatever was requested before. -/
def Stateless {σ : Type} (w : World σ) : Prop :=
  (∀ u s t, (w.httpGet u s).1 = (w.httpGet u t).1) ∧
  (∀ u b s t, (w.httpPost u b s).1 = (w.httpPost u b t).1) ∧
  (∀ l m s t, (w.webhook l m s).1 = (w.webhook l m t).1)

/-- What the processing of a candidate shows: whether it was deleted, and its trace. -/
def Pass.outcome {σ : Type} (p : Pass σ) : Nat × List Event := (p.deletedCount, p.events)

/-- The page has at `x`, strictly below the row `r`, a ninth cell: a `td` element that is
the ninth element among the children of its parent element. -/
def IsNinthCell (doc : Document) (r x : Path) : Prop :=
  Below r x ∧ (∃ as ks, getNode doc x = some (.element "td" as ks)) ∧
    ∃ q i, x = q ++ [i] ∧ q ≠ [] ∧
      (((kidsAt doc q).take (i + 1)).filter Node.isElement).length = 9

/-- The page has at `x` the ninth cell of the row `r` itself: a `td` element that is a child
of the row and the ninth element among the children of the row. -/
def IsOwnNinthCell (doc : Document) (r x : Path) : Prop :=
  ∃ i as ks, x = r ++ [i] ∧ getNode doc x = some (.element "td" as ks) ∧
    (((kidsAt doc r).take (i + 1)).filter Node.isElement).length = 9

/-- The texts of the nodes at the given paths, one after the other. -/
def joinTexts (doc : Document) (cells : List Path) : String :=
  (cells.map (textAt doc)).foldr (fun s acc => s ++ acc) ""

/-- The ninth-cell text of the row `r` as the row test reads it is `txt`: the texts of all
the ninth cells strictly below the row, those of the tables nested in the row included, one
after the other in document order, nothing trimmed. -/
def NinthCellsText (doc : Document) (r : Path) (txt : String) : Prop :=
  ∃ cells : List Path, cells.Pairwise (fun a b => before a b = true) ∧
    (∀ x, x ∈ cells ↔ IsNinthCell doc r x) ∧ txt = joinTexts doc cells

/-! ## Example pages and worlds -/

/-- The configuration of `runScheduledCleaner`. -/
def cfg : HnRCleaner :=
  NewHnRCleaner "https://www.fuzer.xyz" "http://fuzer-service:8080"
    "http://telegram-log-service:8080/send" "fuzer_main_bot"

/-- A page made of a body. -/
def bodyPage (body : List Node) : Document :=
  [.element "html" [] [.element "head" [] [], .element "body" [] body]]

/-- A table cell holding a text. -/
def cell (s : String) : Node := .element "td" [] [.text s]

/-- A row of nine cells: the first holds `first`, the ninth the text `status`. -/
def historyRow (first : List Node) (status : String) : Node :=
  .element "tr" []
    [.element "td" [] first, cell "1", cell "2", cell "3", cell "4", cell "5", cell "6",
      cell "7", cell status]

/-- A snatch-list page: a table whose first row is the header cell, followed by `rows`. -/
def listPage (rows : List Node) : Document :=
  [.element "html" []
    [.element "head" [] [],
     .element "body" []
      [.element "table" [("class", "tborder")]
        [.element "tbody" []
          (.element "tr" []
              [.element "td" [("class", "thead"), ("colspan", "9")]
                [.text "היסטוריית העלאה/הורדה"]] :: rows)]]]]

/-- A link carrying the marker class. -/
def threadLink (href : String) : Node :=
  .element "a" [("class", "threadlink"), ("href", href)] [.text "title"]

/-- A list page with two qualifying rows. -/
def twoRowPage : Document :=
  listPage [historyRow [threadLink "t.php?id=1"] "Yes", historyRow [threadLink "t.php?id=2"] "Yes"]

/-- A list page whose rows do not qualify: wrong case, surrounding white space, no marker. -/
def noCandidatePage : Document :=
  listPage [historyRow [threadLink "t.php?id=1"] "yes", historyRow [threadLink "t.php?id=2"] " Yes ",
    historyRow [.text "title"] "Yes"]

/-- A list page with one qualifying row between two rows whose ninth cell is not `Yes`. -/
def mixedPage : Document :=
  listPage [historyRow [threadLink "t.php?id=1"] "yes", historyRow [threadLink "t.php?id=2"] "Yes",
    historyRow [threadLink "t.php?id=3"] " Yes "]

/-- A list page whose only row has `Yes` in its ninth cell and a link with the marker class
and an `href`, preceded in the row by another element with the marker class. -/
def markedSpanPage : Document :=
  listPage [historyRow
    [.element "span" [("class", "threadlink")] [.text "new"], threadLink "t.php?id=1"] "Yes"]

/-- A table nested in a cell: one row of nine cells, the ninth holding `status`. -/
def innerTable (status : String) : Node :=
  .element "table" [] [.element "tbody" [] [historyRow [] status]]

/-- A list page whose one row with a link has `s` in its own ninth cell; a table nested in
its first cell has a row whose ninth cell holds `Ye`. -/
def splitYesPage : Document :=
  listPage [historyRow [threadLink "t.php?id=1", innerTable "Ye"] "s"]

/-- A list page whose one row with a link has `Yes` in its own ninth cell; a table nested
in its first cell has a row whose ninth cell holds `No`. -/
def shadowedYesPage : Document :=
  listPage [historyRow [threadLink "t.php?id=1", innerTable "No"] "Yes"]

/-- A list page with a second header cell in a table nested in the second row of the first
table: the rows of the inner table come first in the selection. -/
def nestedPage : Document :=
  bodyPage
    [.element "table" []
      [.element "tbody" []
        [historyRow [threadLink "t.php?id=1"] "Yes",
         historyRow
          [.element "table" []
            [.element "tbody" []
              [.element "tr" []
                [.element "td" [("class", "thead")] [.text "היסטוריית העלאה/הורדה"]],
               historyRow [threadLink "t.php?id=2"] "Yes"]]] "No",
         .element "tr" [("class", "thead")]
          [.element "td" [] [.text "היסטוריית העלאה/הורדה"]]]]]

/-- A detail page with one delete link. -/
def detailPage (href : String) : Document :=
  bodyPage [.element "a" [("href", "index.php")] [.text "home"],
    .element "a" [("href", href)] [.text " מחק\n"]]

/-- A detail page without a delete link. -/
def plainPage : Document :=
  bodyPage [.element "a" [("href", "index.php")] [.text "home"],
    .element "a" [("href", "x.php")] [.text "מחק הכל"]]

/-- A detail page whose first `a` element with the delete label has no `href`; a second one
has. -/
def anchorPage : Document :=
  bodyPage [.element "a" [("name", "top")] [.text "מחק"],
    .element "a" [("href", "snatchlist.php?do=delhnr&id=1")] [.text "מחק"]]

/-- A delete page: the form `delhnr` with hidden inputs, one name used twice. -/
def formPage : Document :=
  bodyPage [.element "form" [("name", "delhnr"), ("method", "post")]
    [.element "input" [("type", "hidden"), ("name", "id"), ("value", "1")] [],
     .element "input" [("type", "hidden"), ("name", "token"), ("value", "abc")] [],
     .element "input" [("type", "submit"), ("value", "ok")] [],
     .element "div" [] [.element "input" [("type", "hidden"), ("name", "id"), ("value", "7")] []],
     .element "input" [("type", "hidden")] []]]

/-- A delete page whose form `delhnr` has no hidden input. -/
def emptyFormPage : Document :=
  bodyPage [.element "form" [("name", "delhnr")]
    [.element "input" [("type", "submit"), ("value", "ok")] []]]

/-- A delete page without the form `delhnr`: the hidden input is in another form. -/
def otherFormPage : Document :=
  bodyPage [.element "form" [("name", "search")]
    [.element "input" [("type", "hidden"), ("name", "q"), ("value", "")] []]]

/-- The pages of the example site, by the content the proxy returns. -/
def examplePages (listing : Document) (content : String) : Document :=
  if content = "list" then listing
  else if content = "detail1" then detailPage "del.php?id=1"
  else if content = "detail2" then detailPage "del.php?id=2"
  else if content = "form1" then formPage
  else if content = "form2" then emptyFormPage
  else plainPage

/-- The answer of the example proxy to a GET: status 200 and a content naming the page. -/
def exampleGet (proxyURL : String) : ProxyResponse :=
  if proxyURL = "http://fuzer-service:8080/?url=https://www.fuzer.xyz/snatchlist.php?u=14815&type=hnr&order=hnr&sort=desc"
    then ⟨"", 200, "list"⟩
  else if proxyURL = "http://fuzer-service:8080/?url=https://www.fuzer.xyz/t.php?id=1"
    then ⟨"", 200, "detail1"⟩
  else if proxyURL = "http://fuzer-service:8080/?url=https://www.fuzer.xyz/t.php?id=2"
    then ⟨"", 200, "detail2"⟩
  else if proxyURL = "http://fuzer-service:8080/?url=https://www.fuzer.xyz/del.php?id=1"
    then ⟨"", 200, "form1"⟩
  else if proxyURL = "http://fuzer-service:8080/?url=https://www.fuzer.xyz/del.php?id=2"
    then ⟨"", 200, "form2"⟩
  else ⟨"", 200, "plain"⟩

/-- An example world without state: the proxy serves the pages of `examplePages` with the
given listing and answers every POST with `reply`; the log service answers 200. The escaping
of the target URL is left out. -/
def exampleWorld (listing : Document) (reply : ProxyResponse) : World Unit :=
  ⟨fun u => u, fun _ => "fields", fun _ => none,
    fun u s => (.envelope (exampleGet u), s),
    fun _ _ s => (.envelope reply, s),
    fun _ _ s => (.status 200, s),
    fun content => .ok (examplePages listing content)⟩

/-! ## Lemmas -/

/-! ### Document order -/

theorem before_irrefl (p : Path) : before p p = false := by
  induction p with
  | nil => rfl
  | cons a as ih => simp [before, ih]

theorem before_append_cons (p : Path) (a : Nat) (s : Path) : before p (p ++ a :: s) = true := by
  induction p with
  | nil => rfl
  | cons b bs ih => simp [before, ih]

theorem before_diverge (p : Path) {i j : Nat} (h : i < j) (s t : Path) :
    before (p ++ i :: s) (p ++ j :: t) = true := by
  induction p with
  | nil => simp [before, h]
  | cons b bs ih => simp [before, ih]

mutual
theorem matchAll_eq_filter (m : Path → Bool) : ∀ (p : Path) (n : Node),
    matchAll m p n = (subtree p n).filter m
  | p, .element _ _ ks => by
    simp only [matchAll, subtree, List.filter_cons]
    rw [matchAllKids_eq_filter m p 0 ks]
    split <;> simp
  | p, .text _ => by
    simp only [matchAll, subtree, List.filter_cons, List.filter_nil]
  | p, .other _ => by
    simp only [matchAll, subtree, List.filter_cons, List.filter_nil]
theorem matchAllKids_eq_filter (m : Path → Bool) : ∀ (p : Path) (i : Nat) (ks : List Node),
    matchAllKids m p i ks = (subtreeKids p i ks).filter m
  | _, _, [] => by simp [matchAllKids, subtreeKids]
  | p, i, k :: ks => by
    simp only [matchAllKids, subtreeKids, List.filter_append]
    rw [matchAll_eq_filter m (p ++ [i]) k, matchAllKids_eq_filter m p (i + 1) ks]
end

theorem getNode_cons_zero (k : Node) (ks : List Node) (s : Path) :
    getNode (k :: ks) (0 :: s) = if s.isEmpty then some k else getNode k.kids s := by
  simp [getNode]

theorem getNode_cons_succ (k : Node) (ks : List Node) (j : Nat) (s : Path) :
    getNode (k :: ks) ((j + 1) :: s) = getNode ks (j :: s) := by
  simp [getNode]

theorem getNode_nil (s : Path) : getNode [] s = none := by
  cases s <;> simp [getNode]

mutual
theorem mem_subtree : ∀ (p : Path) (n : Node) (x : Path),
    x ∈ subtree p n ↔ x = p ∨ ∃ j s, x = p ++ j :: s ∧ (getNode n.kids (j :: s)).isSome = true
  | p, .element _ _ ks, x => by
    simp only [subtree, List.mem_cons, Node.kids]
    rw [mem_subtreeKids p 0 ks x]
    simp
  | p, .text _, x => by
    simp [subtree, Node.kids, getNode_nil]
  | p, .other _, x => by
    simp [subtree, Node.kids, getNode_nil]
theorem mem_subtreeKids : ∀ (p : Path) (i : Nat) (ks : List Node) (x : Path),
    x ∈ subtreeKids p i ks ↔
      ∃ j s, x = p ++ (i + j) :: s ∧ (getNode ks (j :: s)).isSome = true
  | p, i, [], x => by simp [subtreeKids, getNode_nil]
  | p, i, k :: ks, x => by
    simp only [subtreeKids, List.mem_append]
    rw [mem_subtree (p ++ [i]) k x, mem_subtreeKids p (i + 1) ks x]
    constructor
    · rintro ((h | ⟨j, s, h, hs⟩) | ⟨j, s, h, hs⟩)
      · exact ⟨0, [], by simpa using h, by simp [getNode_cons_zero]⟩
      · exact ⟨0, j :: s, by simpa using h, by simpa [getNode_cons_zero] using hs⟩
      · exact ⟨j + 1, s, by rw [h]; simp [Nat.add_assoc, Nat.add_comm 1 j],
          by simpa [getNode_cons_succ] using hs⟩
    · rintro ⟨j, s, h, hs⟩
      cases j with
      | zero =>
        left
        cases s with
        | nil => left; simpa using h
        | cons a s =>
          right
          exact ⟨a, s, by simpa using h, by simpa [getNode_cons_zero] using hs⟩
      | succ j =>
        right
        exact ⟨j, s, by rw [h]; simp [Nat.add_assoc, Nat.add_comm 1 j],
          by simpa [getNode_cons_succ] using hs⟩
end

mutual
theorem pairwise_subtree : ∀ (p : Path) (n : Node),
    (subtree p n).Pairwise (fun a b => before a b = true)
  | p, .element _ _ ks => by
    simp only [subtree, List.pairwise_cons]
    refine ⟨?_, pairwise_subtreeKids p 0 ks⟩
    intro x hx
    obtain ⟨j, s, rfl, -⟩ := (mem_subtreeKids p 0 ks x).mp hx
    exact before_append_cons p _ s
  | p, .text _ => by simp [subtree]
  | p, .other _ => by simp [subtree]
theorem pairwise_subtreeKids : ∀ (p : Path) (i : Nat) (ks : List Node),
    (subtreeKids p i ks).Pairwise (fun a b => before a b = true)
  | _, _, [] => by simp [subtreeKids]
  | p, i, k :: ks => by
    simp only [subtreeKids, List.pairwise_append]
    refine ⟨pairwise_subtree (p ++ [i]) k, pairwise_subtreeKids p (i + 1) ks, ?_⟩
    intro x hx y hy
    obtain ⟨j, t, rfl, -⟩ := (mem_subtreeKids p (i + 1) ks y).mp hy
    rcases (mem_subtree (p ++ [i]) k x).mp hx with rfl | ⟨a, s, rfl, -⟩
    · simpa using before_diverge p (show i < i + 1 + j by omega) [] t
    · simpa using before_diverge p (show i < i + 1 + j by omega) (a :: s) t
end

/-! ### Lookup along a path -/

theorem getNode_step {doc : List Node} {a : Nat} {n : Node} (hd : doc[a]? = some n)
    (b : Nat) (rest : Path) : getNode doc (a :: b :: rest) = getNode n.kids (b :: rest) := by
  rw [getNode, hd]
  simp

theorem getNode_append (doc : Document) (p : Path) (j : Nat) (s : Path) :
    getNode doc (p ++ j :: s) = getNode (kidsAt doc p) (j :: s) := by
  induction p generalizing doc with
  | nil => simp [kidsAt]
  | cons a p ih =>
    cases hd : doc[a]? with
    | none => simp [getNode, kidsAt, hd, getNode_nil]
    | some n =>
      cases p with
      | nil => simp [getNode, kidsAt, hd]
      | cons b p =>
        have h1 : getNode doc (a :: b :: p ++ j :: s) = getNode n.kids (b :: p ++ j :: s) :=
          getNode_step hd b (p ++ j :: s)
        have h2 : kidsAt doc (a :: b :: p) = kidsAt n.kids (b :: p) := by
          simp only [kidsAt, List.isEmpty_cons, Bool.false_eq_true, if_false]
          rw [getNode_step hd b p]
        rw [h2]
        exact h1.trans (ih n.kids)

theorem elemKid_of_getNode {ks : List Node} {j : Nat} {s : Path} {t : String}
    {a : List (String × String)} {k : List Node}
    (h : getNode ks (j :: s) = some (.element t a k)) :
    ∃ n, ks[j]? = some n ∧ n.isElement = true := by
  cases hd : ks[j]? with
  | none => simp [getNode, hd] at h
  | some n =>
    refine ⟨n, rfl, ?_⟩
    cases s with
    | nil =>
      simp [getNode, hd] at h
      subst h; rfl
    | cons b s =>
      cases n with
      | element _ _ _ => rfl
      | text _ => simp [getNode, hd, Node.kids] at h
      | other _ => simp [getNode, hd, Node.kids] at h

/-! ### `findKids` -/

theorem mem_findKids (m : Path → Bool) (p : Path) (x : Path) : ∀ (ks : List Node) (i : Nat),
    x ∈ findKids m p i ks ↔
      m x = true ∧ ∃ j s, x = p ++ (i + j) :: s ∧ (getNode ks (j :: s)).isSome = true ∧
        ∃ n, ks[j]? = some n ∧ n.isElement = true
  | [], i => by simp [findKids, getNode_nil]
  | k :: ks, i => by
    simp only [findKids, List.mem_append]
    rw [mem_findKids m p x ks (i + 1)]
    constructor
    · rintro (h | ⟨hm, j, s, h, hs, n, hn, he⟩)
      · split at h
        · rename_i hk
          rw [matchAll_eq_filter, List.mem_filter, mem_subtree] at h
          obtain ⟨h, hm⟩ := h
          refine ⟨hm, ?_⟩
          rcases h with h | ⟨a, s, h, hs⟩
          · exact ⟨0, [], by simpa using h, by simp [getNode_cons_zero], k, by simp, hk⟩
          · exact ⟨0, a :: s, by simpa using h, by simpa [getNode_cons_zero] using hs,
              k, by simp, hk⟩
        · simp at h
      · exact ⟨hm, j + 1, s, by rw [h]; simp [Nat.add_assoc, Nat.add_comm 1 j],
          by simpa [getNode_cons_succ] using hs, n, by simpa using hn, he⟩
    · rintro ⟨hm, j, s, h, hs, n, hn, he⟩
      cases j with
      | zero =>
        left
        simp at hn
        subst hn
        rw [if_pos he, matchAll_eq_filter, List.mem_filter, mem_subtree]
        refine ⟨?_, hm⟩
        cases s with
        | nil => left; simpa using h
        | cons a s =>
          right
          exact ⟨a, s, by simpa using h, by simpa [getNode_cons_zero] using hs⟩
      | succ j =>
        right
        exact ⟨hm, j, s, by rw [h]; simp [Nat.add_assoc, Nat.add_comm 1 j],
          by simpa [getNode_cons_succ] using hs, n, by simpa using hn, he⟩

theorem findKids_sublist (m : Path → Bool) (p : Path) : ∀ (ks : List Node) (i : Nat),
    List.Sublist (findKids m p i ks) (subtreeKids p i ks)
  | [], _ => by simp [findKids, subtreeKids]
  | k :: ks, i => by
    simp only [findKids, subtreeKids]
    refine List.Sublist.append ?_ (findKids_sublist m p ks (i + 1))
    split
    · rw [matchAll_eq_filter]; exact List.filter_sublist _
    · exact List.nil_sublist _

theorem pairwise_findKids (m : Path → Bool) (p : Path) (ks : List Node) (i : Nat) :
    (findKids m p i ks).Pairwise (fun a b => before a b = true) :=
  (pairwise_subtreeKids p i ks).sublist (findKids_sublist m p ks i)

theorem nodup_of_pairwise_before {l : List Path}
    (h : l.Pairwise (fun a b => before a b = true)) : l.Nodup := by
  refine h.imp ?_
  intro a b hab e
  subst e
  rw [before_irrefl] at hab
  exact Bool.noConfusion hab

theorem mem_findKids_doc {doc : Document} {m : Path → Bool} (hm : ElemOnly doc m)
    (p x : Path) :
    x ∈ findKids m p 0 (kidsAt doc p) ↔ m x = true ∧ ∃ j s, x = p ++ j :: s := by
  rw [mem_findKids]
  constructor
  · rintro ⟨h, j, s, hx, -⟩
    exact ⟨h, j, s, by simpa using hx⟩
  · rintro ⟨h, j, s, hx⟩
    obtain ⟨t, a, k, hg⟩ := hm x h
    rw [hx, getNode_append] at hg
    exact ⟨h, j, s, by simpa using hx, by simp [hg], elemKid_of_getNode hg⟩

/-! ### Collecting without duplicates -/

theorem mem_appendWithoutDuplicates (x : Path) : ∀ (l target : Selection),
    x ∈ appendWithoutDuplicates target l ↔ x ∈ target ∨ x ∈ l
  | [], target => by simp [appendWithoutDuplicates]
  | n :: ns, target => by
    simp only [appendWithoutDuplicates]
    split
    · rename_i h
      rw [mem_appendWithoutDuplicates x ns target]
      constructor
      · rintro (h1 | h1)
        · exact Or.inl h1
        · exact Or.inr (List.mem_cons_of_mem _ h1)
      · rintro (h1 | h1)
        · exact Or.inl h1
        · rcases List.mem_cons.mp h1 with rfl | h2
          · exact Or.inl h
          · exact Or.inr h2
    · rw [mem_appendWithoutDuplicates x ns (target ++ [n])]
      simp only [List.mem_append, List.mem_singleton, List.mem_cons]
      tauto

theorem nodup_appendWithoutDuplicates : ∀ (l target : Selection),
    target.Nodup → (appendWithoutDuplicates target l).Nodup
  | [], target, h => by simpa [appendWithoutDuplicates] using h
  | n :: ns, target, h => by
    simp only [appendWithoutDuplicates]
    split
    · exact nodup_appendWithoutDuplicates ns target h
    · rename_i hn
      refine nodup_appendWithoutDuplicates ns (target ++ [n]) ?_
      rw [List.nodup_append]
      refine ⟨h, List.nodup_singleton n, ?_⟩
      intro a ha hb
      rw [List.mem_singleton] at hb
      subst hb
      exact hn ha

theorem appendWithoutDuplicates_eq_append : ∀ (l target : Selection),
    l.Nodup → (∀ x ∈ l, x ∉ target) → appendWithoutDuplicates target l = target ++ l
  | [], target, _, _ => by simp [appendWithoutDuplicates]
  | n :: ns, target, h, hd => by
    simp only [appendWithoutDuplicates]
    rw [if_neg (hd n (List.mem_cons_self _ _))]
    rw [List.nodup_cons] at h
    rw [appendWithoutDuplicates_eq_append ns (target ++ [n]) h.2]
    · simp
    · intro x hx hx2
      rcases List.mem_append.mp hx2 with h3 | h3
      · exact hd x (List.mem_cons_of_mem _ hx) h3
      · rw [List.mem_singleton] at h3
        subst h3
        exact h.1 hx

theorem mem_foldl_collect (f : Path → List Path) (x : Path) : ∀ (s acc : Selection),
    x ∈ s.foldl (fun result n => appendWithoutDuplicates result (f n)) acc ↔
      x ∈ acc ∨ ∃ n ∈ s, x ∈ f n
  | [], acc => by simp
  | n :: ns, acc => by
    rw [List.foldl_cons, mem_foldl_collect f x ns, mem_appendWithoutDuplicates]
    simp only [List.mem_cons, exists_eq_or_imp]
    tauto

theorem nodup_foldl_collect (f : Path → List Path) : ∀ (s acc : Selection),
    acc.Nodup → (s.foldl (fun result n => appendWithoutDuplicates result (f n)) acc).Nodup
  | [], acc, h => by simpa using h
  | n :: ns, acc, h => by
    rw [List.foldl_cons]
    exact nodup_foldl_collect f ns _ (nodup_appendWithoutDuplicates (f n) acc h)

theorem mem_mapNodes (f : Path → List Path) (s : Selection) (x : Path) :
    x ∈ mapNodes f s ↔ ∃ n ∈ s, x ∈ f n := by
  simp [mapNodes, mem_foldl_collect]

theorem nodup_mapNodes (f : Path → List Path) (s : Selection) : (mapNodes f s).Nodup :=
  nodup_foldl_collect f s [] List.nodup_nil

theorem mapNodes_single (f : Path → List Path) (n : Path) (h : (f n).Nodup) :
    mapNodes f [n] = f n := by
  simp only [mapNodes, List.foldl_cons, List.foldl_nil]
  rw [appendWithoutDuplicates_eq_append (f n) [] h (by simp)]
  simp

/-! ### `Find` -/

theorem find_single (doc : Document) (r : Path) (sel : Sel) :
    find doc [r] sel = findKids (sel.matchAt doc) r 0 (kidsAt doc r) :=
  mapNodes_single _ r (nodup_of_pairwise_before (pairwise_findKids _ _ _ _))

theorem pairwise_find_single (doc : Document) (r : Path) (sel : Sel) :
    (find doc [r] sel).Pairwise (fun a b => before a b = true) := by
  rw [find_single]
  exact pairwise_findKids _ _ _ _

theorem nodup_find (doc : Document) (s : Selection) (sel : Sel) : (find doc s sel).Nodup :=
  nodup_mapNodes _ s

theorem mem_find {doc : Document} {sel : Sel} (hm : ElemOnly doc (sel.matchAt doc))
    (s : Selection) (x : Path) :
    x ∈ find doc s sel ↔ sel.matchAt doc x = true ∧ ∃ r ∈ s, ∃ j t, x = r ++ j :: t := by
  simp only [find, mem_mapNodes, mem_findKids_doc hm]
  constructor
  · rintro ⟨r, hr, h, e⟩
    exact ⟨h, r, hr, e⟩
  · rintro ⟨h, r, hr, e⟩
    exact ⟨r, hr, h, e⟩

theorem getNode_ne_nil {doc : Document} {x : Path} {n : Node} (h : getNode doc x = some n) :
    ∃ j t, x = j :: t := by
  cases x with
  | nil => simp [getNode] at h
  | cons j t => exact ⟨j, t, rfl⟩

theorem mem_find_doc {doc : Document} {sel : Sel} (hm : ElemOnly doc (sel.matchAt doc))
    (x : Path) : x ∈ find doc docSel sel ↔ sel.matchAt doc x = true := by
  rw [mem_find hm]
  constructor
  · exact fun h => h.1
  · intro h
    obtain ⟨t, a, k, hg⟩ := hm x h
    obtain ⟨j, s, rfl⟩ := getNode_ne_nil hg
    exact ⟨h, [], by simp [docSel], j, s, rfl⟩

/-! ### What the selectors of the program match -/

theorem elemOnly_tag (doc : Document) (t : String) : ElemOnly doc ((Sel.tag t).matchAt doc) := by
  intro x h
  simp only [Sel.matchAt] at h
  split at h
  · rename_i t1 a k hg
    exact ⟨t1, a, k, hg⟩
  · exact Bool.noConfusion h

theorem elemOnly_cls (doc : Document) (c : String) : ElemOnly doc ((Sel.cls c).matchAt doc) := by
  intro x h
  simp only [Sel.matchAt] at h
  split at h
  · rename_i t1 a k hg
    exact ⟨t1, a, k, hg⟩
  · exact Bool.noConfusion h

theorem elemOnly_both (doc : Document) (a b : Sel) (h : ElemOnly doc (a.matchAt doc)) :
    ElemOnly doc ((Sel.both a b).matchAt doc) := by
  intro x hx
  simp only [Sel.matchAt, Bool.and_eq_true] at hx
  exact h x hx.1

theorem elemOnly_desc (doc : Document) (a d : Sel) (h : ElemOnly doc (d.matchAt doc)) :
    ElemOnly doc ((Sel.desc a d).matchAt doc) := by
  intro x hx
  simp only [Sel.matchAt, Bool.and_eq_true] at hx
  exact h x hx.1

/-! ### Selectors, declaratively -/

theorem mem_ancestors (p q : Path) : q ∈ ancestors p ↔ Below q p := by
  simp only [ancestors, List.mem_map, List.mem_range, Below]
  constructor
  · rintro ⟨k, hk, rfl⟩
    have hd : (p.drop (p.length - 1 - k)).length = k + 1 := by
      rw [List.length_drop]; omega
    cases hdr : p.drop (p.length - 1 - k) with
    | nil => rw [hdr] at hd; simp at hd
    | cons j s =>
      refine ⟨j, s, ?_⟩
      rw [← hdr, List.take_append_drop]
  · rintro ⟨j, s, rfl⟩
    refine ⟨s.length, ?_, ?_⟩
    · simp only [List.length_append, List.length_cons]; omega
    · have : (q ++ j :: s).length - 1 - s.length = q.length := by
        simp only [List.length_append, List.length_cons]; omega
      rw [this]
      simp

theorem matchAt_tag (doc : Document) (t : String) (p : Path) :
    (Sel.tag t).matchAt doc p = true ↔ ∃ as ks, getNode doc p = some (.element t as ks) := by
  simp only [Sel.matchAt]
  constructor
  · intro h
    split at h
    · rename_i t1 a k hg
      have : t1 = t := by simpa using h
      subst this
      exact ⟨a, k, hg⟩
    · exact Bool.noConfusion h
  · rintro ⟨as, ks, hg⟩
    rw [hg]
    simp

theorem any_pair_iff (as : List (String × String)) (key val : String) :
    as.any (fun a => a.1 == key && a.2 == val) = true ↔ (key, val) ∈ as := by
  simp only [List.any_eq_true, Bool.and_eq_true, beq_iff_eq]
  constructor
  · rintro ⟨⟨k, v⟩, hm, h1, h2⟩
    simp only at h1 h2
    subst h1 h2
    exact hm
  · intro h
    exact ⟨(key, val), h, rfl, rfl⟩

theorem matchAt_attrEq (doc : Document) (key val : String) (p : Path) :
    (Sel.attrEq key val).matchAt doc p = true ↔
      ∃ t as ks, getNode doc p = some (.element t as ks) ∧ (key, val) ∈ as := by
  simp only [Sel.matchAt]
  constructor
  · intro h
    split at h
    · rename_i t1 a k hg
      exact ⟨t1, a, k, hg, (any_pair_iff a key val).mp h⟩
    · exact Bool.noConfusion h
  · rintro ⟨t, as, ks, hg, hm⟩
    rw [hg]
    exact (any_pair_iff as key val).mpr hm

theorem matchAt_cls (doc : Document) (c : String) (p : Path) :
    (Sel.cls c).matchAt doc p = true ↔
      ∃ t as ks, getNode doc p = some (.element t as ks) ∧
        ∃ a ∈ as, a.1 = "class" ∧ matchInclude c a.2 = true := by
  simp only [Sel.matchAt]
  constructor
  · intro h
    split at h
    · rename_i t1 a k hg
      simp only [List.any_eq_true, Bool.and_eq_true, beq_iff_eq] at h
      exact ⟨t1, a, k, hg, h⟩
    · exact Bool.noConfusion h
  · rintro ⟨t, as, ks, hg, hm⟩
    rw [hg]
    simpa only [List.any_eq_true, Bool.and_eq_true, beq_iff_eq] using hm

theorem selText_single (doc : Document) (p : Path) : selText doc [p] = textAt doc p := by
  simp [selText]

/-! ### The selections of the extractors -/

theorem mem_deleteLinks (doc : Document) (p : Path) :
    p ∈ deleteLinks doc ↔ IsDeleteAnchor doc p := by
  simp only [deleteLinks, List.mem_filter, mem_find_doc (elemOnly_tag doc "a"), matchAt_tag,
    selText_single, decide_eq_true_eq, IsDeleteAnchor]
  constructor
  · rintro ⟨⟨as, ks, hg⟩, ht⟩
    refine ⟨as, ks, hg, ?_⟩
    simpa [textAt, hg, nodeText] using ht
  · rintro ⟨as, ks, hg, ht⟩
    refine ⟨⟨as, ks, hg⟩, ?_⟩
    simpa [textAt, hg, nodeText] using ht

theorem pairwise_deleteLinks (doc : Document) :
    (deleteLinks doc).Pairwise (fun a b => before a b = true) :=
  (pairwise_find_single doc [] _).sublist (List.filter_sublist _)

theorem elemOnly_formSel (doc : Document) : ElemOnly doc (formSel.matchAt doc) :=
  elemOnly_desc doc _ _ (elemOnly_both doc _ _ (elemOnly_tag doc "input"))

theorem matchAt_both (doc : Document) (a b : Sel) (p : Path) :
    (Sel.both a b).matchAt doc p = true ↔ a.matchAt doc p = true ∧ b.matchAt doc p = true := by
  simp [Sel.matchAt]

theorem matchAt_desc (doc : Document) (a d : Sel) (p : Path) :
    (Sel.desc a d).matchAt doc p = true ↔
      d.matchAt doc p = true ∧ ∃ q, Below q p ∧ a.matchAt doc q = true := by
  simp only [Sel.matchAt, Bool.and_eq_true, List.any_eq_true, mem_ancestors]

theorem mem_hiddenInputs (doc : Document) (p : Path) :
    p ∈ hiddenInputs doc ↔ IsHiddenInput doc p := by
  rw [hiddenInputs, mem_find_doc (elemOnly_formSel doc), formSel, matchAt_desc, matchAt_both]
  simp only [matchAt_both, matchAt_tag, matchAt_attrEq, IsHiddenInput]
  constructor
  · rintro ⟨⟨⟨as, ks, hg⟩, t, as1, ks1, hg1, hm⟩, q, hb, ⟨fas, fks, hq⟩, t2, as2, ks2, hq2, hm2⟩
    rw [hg] at hg1
    cases hg1
    rw [hq] at hq2
    cases hq2
    exact ⟨as, ks, hg, hm, q, fas, fks, hb, hq, hm2⟩
  · rintro ⟨as, ks, hg, hm, q, fas, fks, hb, hq, hm2⟩
    exact ⟨⟨⟨as, ks, hg⟩, _, as, ks, hg, hm⟩, q, hb, ⟨fas, fks, hq⟩, _, fas, fks, hq, hm2⟩

theorem pairwise_hiddenInputs (doc : Document) :
    (hiddenInputs doc).Pairwise (fun a b => before a b = true) :=
  pairwise_find_single doc [] _

theorem mem_threadLinks (doc : Document) (r m : Path) :
    m ∈ threadLinks doc r ↔ IsMarker doc r m := by
  rw [threadLinks, mem_find (elemOnly_cls doc "threadlink"), matchAt_cls]
  simp only [List.mem_singleton, exists_eq_left, IsMarker, Below]
  tauto

theorem pairwise_threadLinks (doc : Document) (r : Path) :
    (threadLinks doc r).Pairwise (fun a b => before a b = true) :=
  pairwise_find_single doc r _

theorem head_of_pairwise_first {l : Selection} {p : Path}
    (hl : l.Pairwise (fun a b => before a b = true)) (hp : p ∈ l)
    (hmin : ∀ q ∈ l, before q p = false) : ∃ tl, l = p :: tl := by
  cases l with
  | nil => simp at hp
  | cons h tl =>
    rcases List.mem_cons.mp hp with rfl | hp2
    · exact ⟨tl, rfl⟩
    · have h1 := (List.pairwise_cons.mp hl).1 p hp2
      rw [hmin h (List.mem_cons_self _ _)] at h1
      exact Bool.noConfusion h1

/-! ### Maps -/

theorem mapGet_mapSet (k k1 v : String) : ∀ m : FormMap,
    mapGet k (mapSet k1 v m) = if k1 = k then some v else mapGet k m
  | [] => by simp [mapSet, mapGet]
  | (k2, v2) :: rest => by
    simp only [mapSet]
    by_cases h : k2 = k1
    · subst h
      simp only [if_true, mapGet]
      by_cases h3 : k2 = k
      · simp [h3]
      · simp [h3]
    · rw [if_neg h]
      simp only [mapGet]
      by_cases h2 : k2 = k
      · subst h2
        have h4 : ¬ k1 = k2 := fun e => h e.symm
        simp [h4]
      · rw [if_neg h2, if_neg h2, mapGet_mapSet k k1 v rest]

theorem mem_mapKeys_mapSet (k k1 v : String) : ∀ m : FormMap,
    k ∈ mapKeys (mapSet k1 v m) ↔ k = k1 ∨ k ∈ mapKeys m
  | [] => by simp [mapSet, mapKeys]
  | (k2, v2) :: rest => by
    have ih := mem_mapKeys_mapSet k k1 v rest
    simp only [mapKeys] at ih
    simp only [mapSet]
    by_cases h : k2 = k1
    · subst h
      simp [mapKeys]
    · rw [if_neg h]
      simp only [mapKeys, List.map_cons, List.mem_cons, ih]
      tauto

theorem nodup_mapKeys_mapSet (k1 v : String) : ∀ m : FormMap,
    (mapKeys m).Nodup → (mapKeys (mapSet k1 v m)).Nodup
  | [], _ => by simp [mapSet, mapKeys]
  | (k2, v2) :: rest, h => by
    simp only [mapKeys, List.map_cons, List.nodup_cons] at h
    simp only [mapSet]
    by_cases h2 : k2 = k1
    · subst h2
      simpa [mapKeys] using h
    · rw [if_neg h2]
      have ih := nodup_mapKeys_mapSet k1 v rest h.2
      have hm := mem_mapKeys_mapSet k2 k1 v rest
      simp only [mapKeys] at ih hm
      simp only [mapKeys, List.map_cons, List.nodup_cons]
      refine ⟨?_, ih⟩
      rw [hm]
      rintro (h3 | h3)
      · exact h2 h3
      · exact h.1 h3

theorem mapSet_ne_nil (k v : String) (m : FormMap) : mapSet k v m ≠ [] := by
  cases m with
  | nil => simp [mapSet]
  | cons a rest =>
    obtain ⟨k2, v2⟩ := a
    simp only [mapSet]
    split <;> simp

/-! ### The loop of `extractFormDetails` -/

theorem mem_mapKeys_formFold (doc : Document) (k : String) : ∀ (l : Selection) (acc : FormMap),
    k ∈ mapKeys (l.foldl (formStep doc) acc) ↔
      k ∈ mapKeys acc ∨ ∃ p ∈ l, attrOrEmpty doc "name" p = k
  | [], acc => by simp
  | p :: l, acc => by
    rw [List.foldl_cons, mem_mapKeys_formFold doc k l, formStep, mem_mapKeys_mapSet]
    simp only [List.mem_cons, exists_eq_or_imp]
    constructor
    · rintro ((h | h) | h)
      · exact Or.inr (Or.inl h.symm)
      · exact Or.inl h
      · exact Or.inr (Or.inr h)
    · rintro (h | h | h)
      · exact Or.inl (Or.inr h)
      · exact Or.inl (Or.inl h.symm)
      · exact Or.inr h

theorem nodup_mapKeys_formFold (doc : Document) : ∀ (l : Selection) (acc : FormMap),
    (mapKeys acc).Nodup → (mapKeys (l.foldl (formStep doc) acc)).Nodup
  | [], acc, h => by simpa using h
  | p :: l, acc, h => by
    rw [List.foldl_cons]
    exact nodup_mapKeys_formFold doc l _ (nodup_mapKeys_mapSet _ _ acc h)

theorem formFold_ne_nil (doc : Document) (l : Selection) (hl : l ≠ []) (acc : FormMap) :
    l.foldl (formStep doc) acc ≠ [] := by
  induction l using List.reverseRecOn with
  | nil => exact absurd rfl hl
  | append_singleton l a _ =>
    rw [List.foldl_append, List.foldl_cons, List.foldl_nil, formStep]
    exact mapSet_ne_nil _ _ _

theorem mapGet_formFold_last (doc : Document) (l : Selection)
    (hl : l.Pairwise (fun a b => before a b = true)) (p : Path) (hp : p ∈ l)
    (hlast : ∀ q ∈ l, attrOrEmpty doc "name" q = attrOrEmpty doc "name" p →
      before p q = false) :
    mapGet (attrOrEmpty doc "name" p) (l.foldl (formStep doc) []) =
      some (attrOrEmpty doc "value" p) := by
  induction l using List.reverseRecOn with
  | nil => simp at hp
  | append_singleton l a ih =>
    rw [List.foldl_append, List.foldl_cons, List.foldl_nil, formStep, mapGet_mapSet]
    rw [List.pairwise_append] at hl
    by_cases hn : attrOrEmpty doc "name" a = attrOrEmpty doc "name" p
    · rw [if_pos hn]
      rcases List.mem_append.mp hp with h | h
      · have h1 := hl.2.2 p h a (List.mem_singleton_self a)
        rw [hlast a (List.mem_append_right _ (List.mem_singleton_self a)) hn] at h1
        exact Bool.noConfusion h1
      · rw [List.mem_singleton] at h
        rw [h]
    · rw [if_neg hn]
      rcases List.mem_append.mp hp with h | h
      · exact ih hl.1 h (fun q hq => hlast q (List.mem_append_left _ hq))
      · rw [List.mem_singleton] at h
        rw [h] at hn
        exact absurd rfl hn

theorem before_asymm : ∀ (p q : Path), before p q = true → before q p = false
  | [], [], h => by simp [before] at h
  | [], _ :: _, _ => by simp [before]
  | _ :: _, [], h => by simp [before] at h
  | a :: as, b :: bs, h => by
    simp only [before, Bool.or_eq_true, decide_eq_true_eq, Bool.and_eq_true, beq_iff_eq] at h
    simp only [before, Bool.or_eq_false_iff, decide_eq_false_iff_not, Bool.and_eq_false_imp,
      beq_iff_eq]
    rcases h with h | ⟨h1, h2⟩
    · exact ⟨by omega, fun e => by omega⟩
    · exact ⟨by omega, fun _ => before_asymm as bs h2⟩

/-- Among the members of a list in document order that satisfy `P`, there is a last one. -/
theorem exists_last_of_pairwise (P : Path → Prop) (l : Selection)
    (hl : l.Pairwise (fun a b => before a b = true)) (h : ∃ p ∈ l, P p) :
    ∃ p ∈ l, P p ∧ ∀ q ∈ l, P q → before p q = false := by
  induction l using List.reverseRecOn with
  | nil => simp at h
  | append_singleton l a ih =>
    rw [List.pairwise_append] at hl
    by_cases ha : P a
    · refine ⟨a, List.mem_append_right _ (List.mem_singleton_self a), ha, ?_⟩
      intro q hq _
      rcases List.mem_append.mp hq with h1 | h1
      · exact before_asymm q a (hl.2.2 q h1 a (List.mem_singleton_self a))
      · rw [List.mem_singleton] at h1
        rw [h1]
        exact before_irrefl a
    · have : ∃ p ∈ l, P p := by
        obtain ⟨p, hp, hP⟩ := h
        rcases List.mem_append.mp hp with h1 | h1
        · exact ⟨p, h1, hP⟩
        · rw [List.mem_singleton] at h1
          rw [h1] at hP
          exact absurd hP ha
      obtain ⟨p, hp, hP, hmax⟩ := ih hl.1 this
      refine ⟨p, List.mem_append_left _ hp, hP, ?_⟩
      intro q hq hPq
      rcases List.mem_append.mp hq with h1 | h1
      · exact hmax q h1 hPq
      · rw [List.mem_singleton] at h1
        rw [h1] at hPq
        exact absurd hPq ha

/-! ### `Attr` -/

theorem selAttr_cons {doc : Document} {p : Path} {t : String} {as : List (String × String)}
    {ks : List Node} (h : getNode doc p = some (.element t as ks)) (name : String)
    (tl : Selection) : selAttr doc name (p :: tl) = getAttributeValue name as := by
  simp [selAttr, h, Node.attrs]

/-! ### Traces -/

theorem notifications_append (a b : List Event) :
    notifications (a ++ b) = notifications a ++ notifications b := by
  induction a with
  | nil => rfl
  | cons e es ih => cases e <;> simp [notifications, ih]

theorem proxyCalls_append (a b : List Event) :
    proxyCalls (a ++ b) = proxyCalls a ++ proxyCalls b := by
  induction a with
  | nil => rfl
  | cons e es ih => cases e <;> simp [proxyCalls, ih]

theorem logToTelegram_notifications {σ : Type} (w : World σ) (c : HnRCleaner)
    (content : String) (s : σ) :
    notifications (logToTelegram w c content s).1 = [content] := by
  unfold logToTelegram
  split
  · rfl
  · split <;> rfl

theorem logToTelegram_proxyCalls {σ : Type} (w : World σ) (c : HnRCleaner)
    (content : String) (s : σ) :
    proxyCalls (logToTelegram w c content s).1 = [] := by
  unfold logToTelegram
  split
  · rfl
  · split <;> rfl

theorem fetchPageContent_events {σ : Type} (w : World σ) (c : HnRCleaner) (u : String)
    (s : σ) : (fetchPageContent w c u s).2.1 = [.proxyGet (proxyURL w c u)] := by
  unfold fetchPageContent
  split
  · rfl
  · rfl
  · split <;> rfl

/-! ### One candidate -/

theorem reportAndContinue_eq {σ : Type} (w : World σ) (c : HnRCleaner) (st : Pass σ)
    (evs : List Event) (s : σ) (msg : String) :
    reportAndContinue w c st evs s msg =
      ⟨st.deletedCount + (reportAndContinue w c ⟨0, [], st.world⟩ evs s msg).deletedCount,
        st.events ++ (reportAndContinue w c ⟨0, [], st.world⟩ evs s msg).events,
        (reportAndContinue w c ⟨0, [], st.world⟩ evs s msg).world⟩ := by
  simp [reportAndContinue]

theorem processTitle_eq {σ : Type} (w : World σ) (c : HnRCleaner) (st : Pass σ)
    (title : String) :
    processTitle w c st title =
      ⟨st.deletedCount + (candidate w c title st.world).deletedCount,
        st.events ++ (candidate w c title st.world).events,
        (candidate w c title st.world).world⟩ := by
  unfold candidate processTitle
  dsimp only
  split
  · exact reportAndContinue_eq _ _ _ _ _ _
  · split
    · exact reportAndContinue_eq _ _ _ _ _ _
    · split
      · exact reportAndContinue_eq _ _ _ _ _ _
      · split
        · exact reportAndContinue_eq _ _ _ _ _ _
        · split
          · exact reportAndContinue_eq _ _ _ _ _ _
          · simp

theorem processTitles_eq {σ : Type} (w : World σ) (c : HnRCleaner) :
    ∀ (titles : List String) (st : Pass σ),
    processTitles w c st titles =
      ⟨st.deletedCount + ((passBlocks w c st.world titles).map Pass.deletedCount).sum,
        st.events ++ ((passBlocks w c st.world titles).map Pass.events).flatten,
        (processTitles w c st titles).world⟩
  | [], st => by simp [processTitles, passBlocks]
  | t :: ts, st => by
    have h := processTitles_eq w c ts (processTitle w c st t)
    simp only [processTitles, List.foldl_cons] at h ⊢
    rw [h]
    rw [processTitle_eq]
    simp [passBlocks, Nat.add_assoc]

theorem head_append (a b : String) (ch : Char) (h : a.data.head? = some ch) :
    (a ++ b).data.head? = some ch := by
  rw [String.data_append]
  cases ha : a.data with
  | nil => rw [ha] at h; simp at h
  | cons x xs => rw [ha] at h; simpa using h

theorem summaryMsg_head (n : Nat) : (summaryMsg n).data.head? = some 'H' := by
  unfold summaryMsg
  exact head_append _ _ _ (head_append _ _ _ rfl)

theorem sendDeleteRequest_notifications {σ : Type} (w : World σ) (c : HnRCleaner)
    (m : FormMap) (s : σ) : notifications (sendDeleteRequest w c m s).2.1 = [] := by
  unfold sendDeleteRequest
  split
  · rfl
  · split
    · rfl
    · rfl
    · split <;> rfl

theorem fetch_events_of_eq {σ : Type} {w : World σ} {c : HnRCleaner} {u : String} {s s1 : σ}
    {r : Except String Document} {e1 : List Event}
    (h : fetchPageContent w c u s = (r, e1, s1)) : e1 = [.proxyGet (proxyURL w c u)] := by
  have := fetchPageContent_events w c u s
  rw [h] at this
  exact this

theorem send_notifications_of_eq {σ : Type} {w : World σ} {c : HnRCleaner} {m : FormMap}
    {s s3 : σ} {r : Option String} {e3 : List Event}
    (h : sendDeleteRequest w c m s = (r, e3, s3)) : notifications e3 = [] := by
  have := sendDeleteRequest_notifications w c m s
  rw [h] at this
  exact this

/-- What the error branch leaves, seen from a fresh counter and trace. -/
theorem report_fresh {σ : Type} (w : World σ) (c : HnRCleaner) (s0 : σ) (evs : List Event)
    (s : σ) (msg : String) (hev : notifications evs = []) :
    (reportAndContinue w c ⟨0, [], s0⟩ evs s msg).deletedCount = 0 ∧
    notifications (reportAndContinue w c ⟨0, [], s0⟩ evs s msg).events = [msg] ∧
    (reportAndContinue w c ⟨0, [], s0⟩ evs s msg).events =
      evs ++ (logToTelegram w c msg s).1 ++ [.logLine msg] := by
  refine ⟨rfl, ?_, by simp [reportAndContinue]⟩
  simp [reportAndContinue, notifications_append, hev, logToTelegram_notifications,
    notifications]

/-- The two ways the processing of a candidate can end. -/
theorem candidate_cases {σ : Type} (w : World σ) (c : HnRCleaner) (title : String) (s : σ) :
    (StepsSucceed w c title s ∧ (candidate w c title s).deletedCount = 1 ∧
      notifications (candidate w c title s).events = [] ∧
      ∃ rest, (candidate w c title s).events = .proxyGet (proxyURL w c title) :: rest) ∨
    (¬ StepsSucceed w c title s ∧ (candidate w c title s).deletedCount = 0 ∧
      (∃ msg, notifications (candidate w c title s).events = [msg] ∧
        msg.data.head? = some 'E') ∧
      ∃ rest, (candidate w c title s).events = .proxyGet (proxyURL w c title) :: rest) := by
  rcases h1 : fetchPageContent w c title s with ⟨r1, e1, s1⟩
  have he1 := fetch_events_of_eq h1
  cases r1 with
  | error err =>
    right
    have hc : candidate w c title s = reportAndContinue w c ⟨0, [], s⟩ e1 s1
        ("Error fetching page " ++ title ++ ": " ++ err) := by
      simp [candidate, processTitle, h1]
    obtain ⟨h0, hn, hev⟩ := report_fresh w c s e1 s1
      ("Error fetching page " ++ title ++ ": " ++ err) (by rw [he1]; rfl)
    rw [hc]
    refine ⟨?_, h0, ⟨_, hn, head_append _ _ _ (head_append _ _ _ (head_append _ _ _ rfl))⟩,
      ?_⟩
    · rintro ⟨pageDoc, f1, t1, _, _, _, _, _, _, _, hf, _⟩
      rw [h1] at hf
      cases hf
    · rw [hev, he1]
      exact ⟨_, rfl⟩
  | ok pageDoc =>
    cases h2 : extractDeleteLink c pageDoc with
    | error err =>
      right
      have hc : candidate w c title s = reportAndContinue w c ⟨0, [], s⟩ e1 s1
          ("Error extracting delete link from " ++ title ++ ": " ++ err) := by
        simp [candidate, processTitle, h1, h2]
      obtain ⟨h0, hn, hev⟩ := report_fresh w c s e1 s1
        ("Error extracting delete link from " ++ title ++ ": " ++ err) (by rw [he1]; rfl)
      rw [hc]
      refine ⟨?_, h0, ⟨_, hn, head_append _ _ _ (head_append _ _ _ (head_append _ _ _ rfl))⟩,
        ?_⟩
      · rintro ⟨pageDoc1, f1, t1, _, _, _, _, _, _, _, hf, hl, _⟩
        rw [h1] at hf
        cases hf
        rw [h2] at hl
        cases hl
      · rw [hev, he1]
        exact ⟨_, rfl⟩
    | ok deleteLink =>
      rcases h3 : fetchPageContent w c deleteLink s1 with ⟨r3, e2, s2⟩
      have he2 := fetch_events_of_eq h3
      cases r3 with
      | error err =>
        right
        have hc : candidate w c title s = reportAndContinue w c ⟨0, [], s⟩ (e1 ++ e2) s2
            ("Error fetching delete page " ++ deleteLink ++ ": " ++ err) := by
          simp [candidate, processTitle, h1, h2, h3]
        obtain ⟨h0, hn, hev⟩ := report_fresh w c s (e1 ++ e2) s2
          ("Error fetching delete page " ++ deleteLink ++ ": " ++ err)
          (by rw [he1, he2]; rfl)
        rw [hc]
        refine ⟨?_, h0,
          ⟨_, hn, head_append _ _ _ (head_append _ _ _ (head_append _ _ _ rfl))⟩, ?_⟩
        · rintro ⟨pageDoc1, f1, t1, dl, _, _, _, _, _, _, hf, hl, hf2, _⟩
          rw [h1] at hf
          cases hf
          rw [h2] at hl
          cases hl
          rw [h3] at hf2
          cases hf2
        · rw [hev, he1]
          exact ⟨_, rfl⟩
      | ok deletePageDoc =>
        cases h4 : extractFormDetails deletePageDoc with
        | error err =>
          right
          have hc : candidate w c title s = reportAndContinue w c ⟨0, [], s⟩ (e1 ++ e2) s2
              ("Error extracting form details from " ++ deleteLink ++ ": " ++ err) := by
            simp [candidate, processTitle, h1, h2, h3, h4]
          obtain ⟨h0, hn, hev⟩ := report_fresh w c s (e1 ++ e2) s2
            ("Error extracting form details from " ++ deleteLink ++ ": " ++ err)
            (by rw [he1, he2]; rfl)
          rw [hc]
          refine ⟨?_, h0,
            ⟨_, hn, head_append _ _ _ (head_append _ _ _ (head_append _ _ _ rfl))⟩, ?_⟩
          · rintro ⟨pageDoc1, f1, t1, dl, _, _, _, _, _, _, hf, hl, hf2, hx, _⟩
            rw [h1] at hf
            cases hf
            rw [h2] at hl
            cases hl
            rw [h3] at hf2
            cases hf2
            rw [h4] at hx
            cases hx
          · rw [hev, he1]
            exact ⟨_, rfl⟩
        | ok formDetails =>
          rcases h5 : sendDeleteRequest w c formDetails s2 with ⟨r5, e3, s3⟩
          have he3 := send_notifications_of_eq h5
          cases r5 with
          | some err =>
            right
            have hc : candidate w c title s =
                reportAndContinue w c ⟨0, [], s⟩ (e1 ++ e2 ++ e3) s3
                  ("Error sending delete request for " ++ deleteLink ++ ": " ++ err) := by
              simp [candidate, processTitle, h1, h2, h3, h4, h5]
            obtain ⟨h0, hn, hev⟩ := report_fresh w c s (e1 ++ e2 ++ e3) s3
              ("Error sending delete request for " ++ deleteLink ++ ": " ++ err)
              (by rw [notifications_append, he3, he1, he2]; rfl)
            rw [hc]
            refine ⟨?_, h0,
              ⟨_, hn, head_append _ _ _ (head_append _ _ _ (head_append _ _ _ rfl))⟩, ?_⟩
            · rintro ⟨pageDoc1, f1, t1, dl, _, _, _, _, _, _, hf, hl, hf2, hx, hs⟩
              rw [h1] at hf
              cases hf
              rw [h2] at hl
              cases hl
              rw [h3] at hf2
              cases hf2
              rw [h4] at hx
              cases hx
              rw [h5] at hs
              cases hs
            · rw [hev, he1]
              exact ⟨_, rfl⟩
          | none =>
            left
            have hc : candidate w c title s = ⟨1, e1 ++ e2 ++ e3, s3⟩ := by
              simp [candidate, processTitle, h1, h2, h3, h4, h5]
            rw [hc]
            refine ⟨⟨pageDoc, e1, s1, deleteLink, deletePageDoc, e2, s2, formDetails, e3, s3,
              h1, h2, h3, h4, h5⟩, rfl, ?_, ?_⟩
            · show notifications (e1 ++ e2 ++ e3) = []
              rw [notifications_append, he3, he1, he2]
              rfl
            · show ∃ rest, e1 ++ e2 ++ e3 = _ :: rest
              rw [he1]
              exact ⟨_, rfl⟩

/-! ### The rows of the history table -/

theorem mem_parent (s : Selection) (g : Path) :
    g ∈ parent s ↔ ∃ n ∈ s, ∃ i, g ≠ [] ∧ n = g ++ [i] := by
  simp only [parent, mem_mapNodes]
  constructor
  · rintro ⟨n, hn, h⟩
    split at h
    · rename_i h2
      rw [List.mem_singleton] at h
      have hne : n ≠ [] := by
        intro e; rw [e] at h2; simp at h2
      refine ⟨n, hn, n.getLast hne, ?_, ?_⟩
      · intro e
        rw [e] at h
        have := congrArg List.length h
        simp at this
        omega
      · rw [h, List.dropLast_append_getLast]
    · simp at h
  · rintro ⟨n, hn, i, hg, rfl⟩
    refine ⟨_, hn, ?_⟩
    have : 2 ≤ (g ++ [i]).length := by
      have := List.length_pos.mpr hg
      simp only [List.length_append, List.length_singleton]
      omega
    rw [if_pos this]
    simp

theorem elemOnly_headerSel (doc : Document) : ElemOnly doc (headerSel.matchAt doc) :=
  elemOnly_desc doc _ _ (elemOnly_both doc _ _ (elemOnly_cls doc "thead"))

theorem matchAt_containsText (doc : Document) (s : String) (p : Path) :
    (Sel.containsText s).matchAt doc p =
      containsChars s.data (lowerChars (textAt doc p).data) := rfl

theorem mem_headers (doc : Document) (h : Path) :
    h ∈ find doc docSel headerSel ↔ IsHeaderCell doc h := by
  rw [mem_find_doc (elemOnly_headerSel doc), headerSel, matchAt_desc, matchAt_both,
    matchAt_cls, matchAt_containsText]
  simp only [matchAt_tag, IsHeaderCell]
  constructor
  · rintro ⟨⟨⟨t, as, ks, hg, hc⟩, ht⟩, q, hb, tas, tks, hq⟩
    exact ⟨t, as, ks, hg, hc, by simpa [textAt, hg, nodeText] using ht, q, tas, tks, hb, hq⟩
  · rintro ⟨t, as, ks, hg, hc, ht, q, tas, tks, hb, hq⟩
    exact ⟨⟨⟨t, as, ks, hg, hc⟩, by simpa [textAt, hg, nodeText] using ht⟩, q, hb, tas, tks, hq⟩

theorem mem_historyRows (doc : Document) (r : Path) :
    r ∈ historyRows doc ↔ IsHistoryRow doc r := by
  rw [historyRows, mem_find (elemOnly_tag doc "tr"), matchAt_tag]
  simp only [mem_parent, mem_headers, IsHistoryRow, Below]
  constructor
  · rintro ⟨hr, g, ⟨n, ⟨h, hh, j, -, rfl⟩, i, hg, rfl⟩, k, t, rfl⟩
    exact ⟨hr, g, i, j, hg, by simpa using hh, k, t, rfl⟩
  · rintro ⟨hr, g, i, j, hg, hh, k, t, rfl⟩
    refine ⟨hr, g, ⟨g ++ [i], ⟨g ++ [i, j], hh, j, by simp, by simp⟩, i, hg, rfl⟩, k, t, rfl⟩

theorem nodup_historyRows (doc : Document) : (historyRows doc).Nodup :=
  nodup_find doc _ _

theorem pairwise_historyRows_single (doc : Document) (g : Path)
    (h : parent (parent (find doc docSel headerSel)) = [g]) :
    (historyRows doc).Pairwise (fun a b => before a b = true) := by
  rw [historyRows, h]
  exact pairwise_find_single doc g _

/-! ### The loop of `extractHnRTitles` -/

theorem rowStep_eq (c : HnRCleaner) (doc : Document) (hrefs : List String) (tr : Path) :
    rowStep c doc hrefs tr = hrefs ++ (rowURL c doc tr).toList := by
  unfold rowStep rowURL
  split
  · dsimp only
    split
    · cases selAttr doc "href" (threadLinks doc tr) <;> simp
    · rename_i h
      have : threadLinks doc tr = [] := by
        cases hl : threadLinks doc tr with
        | nil => rfl
        | cons a l => rw [hl] at h; simp at h
      rw [this]
      simp [selAttr]
  · simp

theorem eachRow_eq (c : HnRCleaner) (doc : Document) : ∀ (rows : Selection)
    (hrefs : List String),
    eachRow c doc rows hrefs = hrefs ++ rows.filterMap (rowURL c doc)
  | [], hrefs => by simp [eachRow]
  | r :: rows, hrefs => by
    have ih := eachRow_eq c doc rows (rowStep c doc hrefs r)
    simp only [eachRow, List.foldl_cons] at ih ⊢
    rw [ih, rowStep_eq]
    cases hr : rowURL c doc r <;> simp [List.filterMap_cons, hr]

theorem extractHnRTitles_eq (c : HnRCleaner) (doc : Document) :
    extractHnRTitles c doc = (historyRows doc).filterMap (rowURL c doc) := by
  simp [extractHnRTitles, eachRow_eq]

theorem rowURL_of_first_marker (c : HnRCleaner) (doc : Document) (r m : Path) (t : String)
    (as : List (String × String)) (ks : List Node) (href : String)
    (hyes : cell9Text doc r = "Yes") (hm : IsMarker doc r m)
    (hfirst : ∀ q, IsMarker doc r q → before q m = false)
    (hg : getNode doc m = some (.element t as ks))
    (hh : getAttributeValue "href" as = some href) :
    rowURL c doc r = some (c.BaseURL ++ "/" ++ href) := by
  obtain ⟨tl, htl⟩ := head_of_pairwise_first (pairwise_threadLinks doc r)
    ((mem_threadLinks doc r m).mpr hm)
    (fun q hq => hfirst q ((mem_threadLinks doc r q).mp hq))
  rw [rowURL, if_pos hyes, htl, selAttr_cons hg, hh]
  rfl

theorem rowURL_some (c : HnRCleaner) (doc : Document) (r : Path) (url : String)
    (h : rowURL c doc r = some url) :
    cell9Text doc r = "Yes" ∧ ∃ m t as ks href, IsMarker doc r m ∧
      (∀ q, IsMarker doc r q → before q m = false) ∧
      getNode doc m = some (.element t as ks) ∧ getAttributeValue "href" as = some href ∧
      url = c.BaseURL ++ "/" ++ href := by
  unfold rowURL at h
  split at h
  · rename_i hyes
    refine ⟨hyes, ?_⟩
    cases hl : threadLinks doc r with
    | nil => rw [hl] at h; simp [selAttr] at h
    | cons m tl =>
      have hm : IsMarker doc r m := (mem_threadLinks doc r m).mp (by rw [hl]; simp)
      obtain ⟨hb, t, as, ks, hg, hc⟩ := hm
      rw [hl, selAttr_cons hg] at h
      cases hh : getAttributeValue "href" as with
      | none => rw [hh] at h; simp at h
      | some href =>
        rw [hh] at h
        refine ⟨m, t, as, ks, href, ⟨hb, t, as, ks, hg, hc⟩, ?_, hg, hh, ?_⟩
        · intro q hq
          have hq2 := (mem_threadLinks doc r q).mpr hq
          rw [hl] at hq2
          have hp := pairwise_threadLinks doc r
          rw [hl] at hp
          rcases List.mem_cons.mp hq2 with e | e
          · rw [e]; exact before_irrefl m
          · exact before_asymm m q ((List.pairwise_cons.mp hp).1 q e)
        · simpa using h.symm
  · simp at h

/-! ### `strings.Contains` -/

theorem hasPrefix_append (a b : List Char) : hasPrefix a (a ++ b) = true := by
  induction a with
  | nil => cases b <;> rfl
  | cons x xs ih => simp [hasPrefix, ih]

theorem containsChars_append (pre a : List Char) : containsChars a (pre ++ a) = true := by
  induction pre with
  | nil =>
    cases a with
    | nil => rfl
    | cons x xs =>
      have := hasPrefix_append (x :: xs) []
      simp only [List.append_nil] at this
      simp [containsChars, this]
  | cons y ys ih => simp [containsChars, ih]

/-! ### Worlds without state -/

theorem fetchPageContent_stateless {σ : Type} {w : World σ} (hw : Stateless w)
    (c : HnRCleaner) (u : String) (s t : σ) :
    (fetchPageContent w c u s).1 = (fetchPageContent w c u t).1 := by
  have h := hw.1 (proxyURL w c u) s t
  unfold fetchPageContent
  rcases hs : w.httpGet (proxyURL w c u) s with ⟨r, s1⟩
  rcases ht : w.httpGet (proxyURL w c u) t with ⟨r2, t1⟩
  rw [hs, ht] at h
  simp only at h
  subst h
  cases r with
  | transportErr e => rfl
  | decodeErr e => rfl
  | envelope response =>
    simp only
    split <;> rfl

theorem logToTelegram_stateless {σ : Type} {w : World σ} (hw : Stateless w)
    (c : HnRCleaner) (m : String) (s t : σ) :
    (logToTelegram w c m s).1 = (logToTelegram w c m t).1 := by
  have h := hw.2.2 c.TelegramLog m s t
  unfold logToTelegram
  rcases hs : w.webhook c.TelegramLog m s with ⟨r, s1⟩
  rcases ht : w.webhook c.TelegramLog m t with ⟨r2, t1⟩
  rw [hs, ht] at h
  simp only at h
  subst h
  cases r with
  | sendErr e => rfl
  | status code =>
    simp only
    split <;> rfl

theorem sendDeleteRequest_stateless {σ : Type} {w : World σ} (hw : Stateless w)
    (c : HnRCleaner) (m : FormMap) (s t : σ) :
    (sendDeleteRequest w c m s).1 = (sendDeleteRequest w c m t).1 ∧
      (sendDeleteRequest w c m s).2.1 = (sendDeleteRequest w c m t).2.1 := by
  have h := hw.2.1 (proxyURL w c (postURL c)) (w.marshal m) s t
  unfold sendDeleteRequest
  cases w.newRequestErr (proxyURL w c (postURL c)) with
  | some e => exact ⟨rfl, rfl⟩
  | none =>
    rcases hs : w.httpPost (proxyURL w c (postURL c)) (w.marshal m) s with ⟨r, s1⟩
    rcases ht : w.httpPost (proxyURL w c (postURL c)) (w.marshal m) t with ⟨r2, t1⟩
    rw [hs, ht] at h
    simp only at h
    subst h
    cases r with
    | transportErr e => exact ⟨rfl, rfl⟩
    | decodeErr e => exact ⟨rfl, rfl⟩
    | envelope response =>
      simp only
      split <;> exact ⟨rfl, rfl⟩

theorem reportAndContinue_outcome {σ : Type} {w : World σ} (hw : Stateless w)
    (c : HnRCleaner) (a b : σ) (evs : List Event) (s t : σ) (msg : String) :
    (reportAndContinue w c ⟨0, [], a⟩ evs s msg).outcome =
      (reportAndContinue w c ⟨0, [], b⟩ evs t msg).outcome := by
  simp only [reportAndContinue, Pass.outcome, logToTelegram_stateless hw c msg s t]

/-- In a world without state the processing of a candidate shows the same whatever the
state it starts from. -/
theorem candidate_stateless {σ : Type} {w : World σ} (hw : Stateless w) (c : HnRCleaner)
    (title : String) (s t : σ) :
    (candidate w c title s).outcome = (candidate w c title t).outcome := by
  have hf := fetchPageContent_stateless hw c title s t
  rcases h1 : fetchPageContent w c title s with ⟨r1, e1, s1⟩
  rcases k1 : fetchPageContent w c title t with ⟨q1, f1, t1⟩
  have he1 := fetch_events_of_eq h1
  have hf1 := fetch_events_of_eq k1
  rw [h1, k1] at hf
  simp only at hf
  subst hf he1 hf1
  cases r1 with
  | error err =>
    simpa [candidate, processTitle, h1, k1] using reportAndContinue_outcome hw c s t _ s1 t1 _
  | ok pageDoc =>
    cases h2 : extractDeleteLink c pageDoc with
    | error err =>
      simpa [candidate, processTitle, h1, k1, h2] using
        reportAndContinue_outcome hw c s t _ s1 t1 _
    | ok deleteLink =>
      have hg := fetchPageContent_stateless hw c deleteLink s1 t1
      rcases h3 : fetchPageContent w c deleteLink s1 with ⟨r3, e2, s2⟩
      rcases k3 : fetchPageContent w c deleteLink t1 with ⟨q3, f2, t2⟩
      have he2 := fetch_events_of_eq h3
      have hf2 := fetch_events_of_eq k3
      rw [h3, k3] at hg
      simp only at hg
      subst hg he2 hf2
      cases r3 with
      | error err =>
        simpa [candidate, processTitle, h1, k1, h2, h3, k3] using
          reportAndContinue_outcome hw c s t _ s2 t2 _
      | ok deletePageDoc =>
        cases h4 : extractFormDetails deletePageDoc with
        | error err =>
          simpa [candidate, processTitle, h1, k1, h2, h3, k3, h4] using
            reportAndContinue_outcome hw c s t _ s2 t2 _
        | ok formDetails =>
          have hsd := sendDeleteRequest_stateless hw c formDetails s2 t2
          rcases h5 : sendDeleteRequest w c formDetails s2 with ⟨r5, e3, s3⟩
          rcases k5 : sendDeleteRequest w c formDetails t2 with ⟨q5, f3, t3⟩
          rw [h5, k5] at hsd
          simp only at hsd
          obtain ⟨hr, he⟩ := hsd
          subst hr he
          cases r5 with
          | some err =>
            simpa [candidate, processTitle, h1, k1, h2, h3, k3, h4, h5, k5] using
              reportAndContinue_outcome hw c s t _ s3 t3 _
          | none =>
            simp [candidate, processTitle, h1, k1, h2, h3, k3, h4, h5, k5, Pass.outcome]

theorem passBlocks_stateless {σ : Type} {w : World σ} (hw : Stateless w) (c : HnRCleaner)
    (s0 : σ) : ∀ (titles : List String) (s : σ),
    (passBlocks w c s titles).map Pass.outcome =
      titles.map (fun title => (candidate w c title s0).outcome)
  | [], _ => rfl
  | t :: ts, s => by
    simp only [passBlocks, List.map_cons]
    rw [candidate_stateless hw c t s s0, passBlocks_stateless hw c s0 ts]

/-! ### The ninth cell -/

theorem nthChildMatch_iff (doc : Document) (b : Nat) (x : Path) :
    nthChildMatch doc b x = true ↔
      (∃ t as ks, getNode doc x = some (.element t as ks)) ∧
        ∃ q i, x = q ++ [i] ∧ q ≠ [] ∧
          (((kidsAt doc q).take (i + 1)).filter Node.isElement).length = b := by
  unfold nthChildMatch
  constructor
  · intro h
    split at h
    · rename_i t as ks hg
      refine ⟨⟨t, as, ks, hg⟩, ?_⟩
      dsimp only at h
      split at h
      · exact Bool.noConfusion h
      · rename_i hne
        split at h
        · exact Bool.noConfusion h
        · rename_i i hi
          refine ⟨x.dropLast, i, ?_, ?_, by simpa using h⟩
          · have hx : x ≠ [] := by
              intro e; rw [e] at hi; simp at hi
            have hl : x.getLast hx = i := by
              rw [List.getLast?_eq_getLast _ hx] at hi
              exact Option.some.inj hi
            rw [← hl, List.dropLast_append_getLast]
          · intro e
            rw [e] at hne
            simp at hne
    · exact Bool.noConfusion h
  · rintro ⟨⟨t, as, ks, hg⟩, q, i, rfl, hq, hc⟩
    rw [hg]
    dsimp only
    have h1 : (q ++ [i]).dropLast = q := by simp
    have h2 : (q ++ [i]).getLast? = some i := by simp
    rw [h1, h2]
    have h3 : q.isEmpty = false := by
      cases q with
      | nil => exact absurd rfl hq
      | cons a l => rfl
    simp [h3, hc]

theorem mem_ninthCells (doc : Document) (r x : Path) :
    x ∈ find doc [r] (.both (.tag "td") (.nthChild 9)) ↔ IsNinthCell doc r x := by
  rw [mem_find (elemOnly_both doc _ _ (elemOnly_tag doc "td")), matchAt_both, matchAt_tag]
  simp only [Sel.matchAt, nthChildMatch_iff, List.mem_singleton, exists_eq_left, IsNinthCell,
    Below]
  constructor
  · rintro ⟨⟨h1, -, h2⟩, h3⟩
    exact ⟨h3, h1, h2⟩
  · rintro ⟨h3, ⟨as, ks, h1⟩, h2⟩
    exact ⟨⟨⟨as, ks, h1⟩, ⟨_, as, ks, h1⟩, h2⟩, h3⟩

/-- The text the row test reads is the concatenated text of the ninth cells below the row,
in document order. -/
theorem cell9Text_spec (doc : Document) (r : Path) :
    ∃ cells : List Path, cells.Pairwise (fun a b => before a b = true) ∧
      (∀ x, x ∈ cells ↔ IsNinthCell doc r x) ∧ cell9Text doc r = selText doc cells :=
  ⟨_, pairwise_find_single doc r _, mem_ninthCells doc r, rfl⟩

theorem selText_eq_joinTexts (doc : Document) : ∀ cells : List Path,
    selText doc cells = joinTexts doc cells
  | [] => rfl
  | x :: cells => by
    have ih := selText_eq_joinTexts doc cells
    simp only [joinTexts] at ih
    simp only [selText, joinTexts, List.map_cons, List.foldr_cons, ih]

/-- Two lists in document order with the same members are the same list. -/
theorem eq_of_pairwise_before : ∀ (l1 l2 : List Path),
    l1.Pairwise (fun a b => before a b = true) →
    l2.Pairwise (fun a b => before a b = true) → (∀ x, x ∈ l1 ↔ x ∈ l2) → l1 = l2
  | [], [], _, _, _ => rfl
  | [], b :: l2, _, _, h => absurd ((h b).mpr (List.mem_cons_self _ _)) (List.not_mem_nil b)
  | a :: l1, [], _, _, h => absurd ((h a).mp (List.mem_cons_self _ _)) (List.not_mem_nil a)
  | a :: l1, b :: l2, h1, h2, h => by
    rw [List.pairwise_cons] at h1 h2
    have hab : a = b := by
      rcases List.mem_cons.mp ((h a).mp (List.mem_cons_self _ _)) with e | e
      · exact e
      · rcases List.mem_cons.mp ((h b).mpr (List.mem_cons_self _ _)) with e2 | e2
        · exact e2.symm
        · have hba := h2.1 a e
          have hab := h1.1 b e2
          rw [before_asymm a b hab] at hba
          exact Bool.noConfusion hba
    subst hab
    have hna1 : a ∉ l1 := fun hm => by
      have := h1.1 a hm
      rw [before_irrefl] at this
      exact Bool.noConfusion this
    have hna2 : a ∉ l2 := fun hm => by
      have := h2.1 a hm
      rw [before_irrefl] at this
      exact Bool.noConfusion this
    have htl : ∀ x, x ∈ l1 ↔ x ∈ l2 := by
      intro x
      constructor
      · intro hx
        rcases List.mem_cons.mp ((h x).mp (List.mem_cons_of_mem _ hx)) with e | e
        · rw [e] at hx
          exact absurd hx hna1
        · exact e
      · intro hx
        rcases List.mem_cons.mp ((h x).mpr (List.mem_cons_of_mem _ hx)) with e | e
        · rw [e] at hx
          exact absurd hx hna2
        · exact e
    rw [eq_of_pairwise_before l1 l2 h1.2 h2.2 htl]

/-- The text the row test reads, `tr.Find("td:nth-child(9)").Text()`, is the ninth-cell text
of the row as `NinthCellsText` describes it, and no other. -/
theorem ninthCellsText_iff (doc : Document) (r : Path) (txt : String) :
    NinthCellsText doc r txt ↔ cell9Text doc r = txt := by
  constructor
  · rintro ⟨cells, hp, hm, rfl⟩
    have he : cells = find doc [r] (.both (.tag "td") (.nthChild 9)) :=
      eq_of_pairwise_before _ _ hp (pairwise_find_single doc r _)
        (fun x => (hm x).trans (mem_ninthCells doc r x).symm)
    rw [cell9Text, ← he, selText_eq_joinTexts]
  · rintro rfl
    exact ⟨_, pairwise_find_single doc r _, mem_ninthCells doc r,
      selText_eq_joinTexts doc _⟩

theorem isNinthCell_of_own {doc : Document} {r x : Path} (hr : r ≠ [])
    (h : IsOwnNinthCell doc r x) : IsNinthCell doc r x := by
  obtain ⟨i, as, ks, hx, hg, hc⟩ := h
  exact ⟨⟨i, [], hx⟩, ⟨as, ks, hg⟩, r, i, hx, hr, hc⟩

theorem ne_nil_of_isHistoryRow {doc : Document} {r : Path} (h : IsHistoryRow doc r) :
    r ≠ [] := by
  obtain ⟨⟨as, ks, hg⟩, -⟩ := h
  intro e
  rw [e] at hg
  simp [getNode] at hg

/-- For a row with no ninth cell below it but its own (no table with nine columns nested in
it), the ninth-cell text the row test reads is the text of the ninth cell of the row. -/
theorem ninthCellsText_own (doc : Document) (r x : Path) (txt : String) (hr : r ≠ [])
    (hown : IsOwnNinthCell doc r x) (honly : ∀ y, IsNinthCell doc r y → y = x) :
    NinthCellsText doc r txt ↔ txt = textAt doc x := by
  have hx := isNinthCell_of_own hr hown
  have hcells : ∀ cells : List Path, cells.Pairwise (fun a b => before a b = true) →
      (∀ y, y ∈ cells ↔ IsNinthCell doc r y) → cells = [x] := by
    intro cells hp hm
    refine eq_of_pairwise_before _ _ hp (List.pairwise_singleton _ _) ?_
    intro y
    rw [hm, List.mem_singleton]
    exact ⟨honly y, fun e => e ▸ hx⟩
  constructor
  · rintro ⟨cells, hp, hm, rfl⟩
    rw [hcells cells hp hm]
    simp [joinTexts]
  · intro e
    refine ⟨[x], List.pairwise_singleton _ _, ?_, by simp [joinTexts, e]⟩
    intro y
    rw [List.mem_singleton]
    exact ⟨fun e => e ▸ hx, honly y⟩

/-! ## The extractors -/

/-- C3, as amended: `extractDeleteLink` looks at the first `a` element of the page, in
document order, whose trimmed text is the delete label, and at no later one: when that
element carries an `href` it succeeds and returns `BaseURL + "/" + href`, and when it
carries none it fails with the `not found` error. -/
theorem extractDeleteLink_first_anchor (c : HnRCleaner) (doc : Document) (p : Path)
    (as : List (String × String)) (ks : List Node)
    (hp : getNode doc p = some (.element "a" as ks))
    (htext : trimSpace (nodesText ks) = deleteLabel)
    (hfirst : ∀ q, IsDeleteAnchor doc q → before q p = false) :
    (∀ href, getAttributeValue "href" as = some href →
      extractDeleteLink c doc = .ok (c.BaseURL ++ "/" ++ href)) ∧
    (getAttributeValue "href" as = none →
      extractDeleteLink c doc = .error "no 'מחק' link found") := by
  obtain ⟨tl, htl⟩ := head_of_pairwise_first (pairwise_deleteLinks doc)
    ((mem_deleteLinks doc p).mpr ⟨as, ks, hp, htext⟩)
    (fun q hq => hfirst q ((mem_deleteLinks doc q).mp hq))
  constructor
  · intro href hhref
    rw [extractDeleteLink, htl, selAttr_cons hp, hhref]
  · intro hhref
    rw [extractDeleteLink, htl, selAttr_cons hp, hhref]

/-- C3, an instance: the delete link of `detailPage` is its second `a` element. -/
theorem extractDeleteLink_first_anchor_witness :
    getNode (detailPage "del.php?id=1") [0, 1, 1] =
        some (.element "a" [("href", "del.php?id=1")] [.text " מחק\n"]) ∧
      extractDeleteLink cfg (detailPage "del.php?id=1") =
        .ok "https://www.fuzer.xyz/del.php?id=1" :=
  ⟨rfl, (extractDeleteLink_first_anchor cfg (detailPage "del.php?id=1") [0, 1, 1]
    [("href", "del.php?id=1")] [.text " מחק\n"] rfl (by decide)
    (fun q hq => by
      have h := (mem_deleteLinks _ q).mpr hq
      rw [show deleteLinks (detailPage "del.php?id=1") = [[0, 1, 1]] from by decide,
        List.mem_singleton] at h
      rw [h]
      rfl)).1 "del.php?id=1" rfl⟩

/-- C3 fails as stated: `anchorPage` has a hyperlink with an `href` whose trimmed text is the
delete label, yet `extractDeleteLink` fails, because the first `a` element with that text
has no `href`. -/
theorem extractDeleteLink_first_without_href :
    ¬ (∀ (c : HnRCleaner) (doc : Document) (p : Path) (as : List (String × String))
        (ks : List Node) (href : String),
        getNode doc p = some (.element "a" as ks) →
        trimSpace (nodesText ks) = deleteLabel →
        getAttributeValue "href" as = some href →
        (∀ q as1 ks1 href1, getNode doc q = some (.element "a" as1 ks1) →
          trimSpace (nodesText ks1) = deleteLabel →
          getAttributeValue "href" as1 = some href1 → before q p = false) →
        extractDeleteLink c doc = .ok (c.BaseURL ++ "/" ++ href)) := by
  intro h
  have h1 := h cfg anchorPage [0, 1, 1] [("href", "snatchlist.php?do=delhnr&id=1")]
    [.text "מחק"] "snatchlist.php?do=delhnr&id=1" rfl (by decide) rfl
    (fun q as1 ks1 href1 hq ht hh => by
      have hm := (mem_deleteLinks _ q).mpr ⟨as1, ks1, hq, ht⟩
      rw [show deleteLinks anchorPage = [[0, 1, 0], [0, 1, 1]] from by decide] at hm
      simp only [List.mem_cons, List.mem_singleton, List.not_mem_nil, or_false] at hm
      rcases hm with e | e
      · subst e
        have : getNode anchorPage [0, 1, 0] =
            some (.element "a" [("name", "top")] [.text "מחק"]) := rfl
        rw [this] at hq
        cases hq
        cases hh
      · subst e
        rfl)
  have h2 : extractDeleteLink cfg anchorPage = .error "no 'מחק' link found" := rfl
  rw [h2] at h1
  cases h1

/-- The error of `extractDeleteLink` when no `a` element with the delete label carries an
`href`. -/
theorem extractDeleteLink_error (c : HnRCleaner) (doc : Document)
    (h : ∀ p as ks, getNode doc p = some (.element "a" as ks) →
      trimSpace (nodesText ks) = deleteLabel → getAttributeValue "href" as = none) :
    extractDeleteLink c doc = .error "no 'מחק' link found" := by
  unfold extractDeleteLink
  cases hl : deleteLinks doc with
  | nil => rfl
  | cons p tl =>
    obtain ⟨as, ks, hp, ht⟩ := (mem_deleteLinks doc p).mp (by rw [hl]; simp)
    rw [selAttr_cons hp, h p as ks hp ht]

/-- C5: when no hidden input lies below a form named `delhnr` (the form has none, or there
is no such form), `extractFormDetails` fails with `no form details found` and returns no
mapping. -/
theorem extractFormDetails_no_hidden_input (doc : Document)
    (h : ∀ p, ¬ IsHiddenInput doc p) :
    extractFormDetails doc = .error "no form details found" := by
  have hl : hiddenInputs doc = [] := by
    cases hl : hiddenInputs doc with
    | nil => rfl
    | cons p tl => exact absurd ((mem_hiddenInputs doc p).mp (by rw [hl]; simp)) (h p)
  simp [extractFormDetails, hl]

/-- C5, two instances: a form `delhnr` without hidden input, and a page without the form. -/
theorem extractFormDetails_no_hidden_input_witness :
    (∃ as ks, getNode emptyFormPage [0, 1, 0] = some (.element "form" as ks) ∧
        ("name", "delhnr") ∈ as) ∧
      extractFormDetails emptyFormPage = .error "no form details found" ∧
      extractFormDetails otherFormPage = .error "no form details found" :=
  ⟨⟨_, _, rfl, by decide⟩,
    extractFormDetails_no_hidden_input emptyFormPage (fun p hp => by
      have h := (mem_hiddenInputs _ p).mpr hp
      rw [show hiddenInputs emptyFormPage = [] from by decide] at h
      exact absurd h (List.not_mem_nil p)),
    extractFormDetails_no_hidden_input otherFormPage (fun p hp => by
      have h := (mem_hiddenInputs _ p).mpr hp
      rw [show hiddenInputs otherFormPage = [] from by decide] at h
      exact absurd h (List.not_mem_nil p))⟩

/-- C10: when some hidden input lies below a form named `delhnr`, `extractFormDetails`
returns a mapping whose keys are exactly the names of those inputs, each key mapped to the
value of the last such input, in document order, with that name; a missing `name` or
`value` attribute reads as the empty string. -/
theorem extractFormDetails_mapping (doc : Document) (h : ∃ p, IsHiddenInput doc p) :
    ∃ m, extractFormDetails doc = .ok m ∧ (mapKeys m).Nodup ∧
      (∀ k, k ∈ mapKeys m ↔ ∃ p, IsHiddenInput doc p ∧ attrOrEmpty doc "name" p = k) ∧
      (∀ k v, mapGet k m = some v ↔
        ∃ p, IsHiddenInput doc p ∧ attrOrEmpty doc "name" p = k ∧
          (∀ q, IsHiddenInput doc q → attrOrEmpty doc "name" q = k → before p q = false) ∧
          attrOrEmpty doc "value" p = v) := by
  obtain ⟨p0, hp0⟩ := h
  have hne : hiddenInputs doc ≠ [] := by
    intro e
    have := (mem_hiddenInputs doc p0).mpr hp0
    rw [e] at this
    exact absurd this (List.not_mem_nil p0)
  have hpw := pairwise_hiddenInputs doc
  have hkeys : ∀ k, k ∈ mapKeys ((hiddenInputs doc).foldl (formStep doc) []) ↔
      ∃ p, IsHiddenInput doc p ∧ attrOrEmpty doc "name" p = k := by
    intro k
    rw [mem_mapKeys_formFold]
    constructor
    · rintro (h1 | ⟨p, hp, hk⟩)
      · simp [mapKeys] at h1
      · exact ⟨p, (mem_hiddenInputs doc p).mp hp, hk⟩
    · rintro ⟨p, hp, hk⟩
      exact Or.inr ⟨p, (mem_hiddenInputs doc p).mpr hp, hk⟩
  have hlast : ∀ p, IsHiddenInput doc p →
      (∀ q, IsHiddenInput doc q → attrOrEmpty doc "name" q = attrOrEmpty doc "name" p →
        before p q = false) →
      mapGet (attrOrEmpty doc "name" p) ((hiddenInputs doc).foldl (formStep doc) []) =
        some (attrOrEmpty doc "value" p) := by
    intro p hp hl
    exact mapGet_formFold_last doc _ hpw p ((mem_hiddenInputs doc p).mpr hp)
      (fun q hq => hl q ((mem_hiddenInputs doc q).mp hq))
  refine ⟨(hiddenInputs doc).foldl (formStep doc) [], ?_, ?_, hkeys, ?_⟩
  · unfold extractFormDetails
    dsimp only
    rw [if_neg]
    intro e
    exact formFold_ne_nil doc _ hne [] (List.length_eq_zero.mp e)
  · exact nodup_mapKeys_formFold doc _ [] (by simp [mapKeys])
  · intro k v
    constructor
    · intro hg
      have hk : k ∈ mapKeys ((hiddenInputs doc).foldl (formStep doc) []) := by
        generalize (hiddenInputs doc).foldl (formStep doc) [] = m at hg
        induction m with
        | nil => simp [mapGet] at hg
        | cons a rest ih =>
          obtain ⟨k2, v2⟩ := a
          simp only [mapGet] at hg
          simp only [mapKeys, List.map_cons, List.mem_cons]
          by_cases hk2 : k2 = k
          · exact Or.inl hk2.symm
          · rw [if_neg hk2] at hg
            exact Or.inr (ih hg)
      obtain ⟨p1, hp1, hn1⟩ := (hkeys k).mp hk
      obtain ⟨p, hp, hpk, hmax⟩ := exists_last_of_pairwise
        (fun q => attrOrEmpty doc "name" q = k) (hiddenInputs doc) hpw
        ⟨p1, (mem_hiddenInputs doc p1).mpr hp1, hn1⟩
      have hp2 := (mem_hiddenInputs doc p).mp hp
      have hmax2 : ∀ q, IsHiddenInput doc q → attrOrEmpty doc "name" q = k →
          before p q = false :=
        fun q hq hqk => hmax q ((mem_hiddenInputs doc q).mpr hq) hqk
      have := hlast p hp2 (fun q hq hqn => hmax2 q hq (hqn.trans hpk))
      rw [hpk, hg] at this
      exact ⟨p, hp2, hpk, hmax2, (Option.some.inj this).symm⟩
    · rintro ⟨p, hp, hpk, hmax, hv⟩
      have := hlast p hp (fun q hq hqn => hmax q hq (hqn.trans hpk))
      rw [hpk, hv] at this
      exact this

/-- C10, an instance: the inputs of `formPage` are named `id`, `token`, `id` and, for the
one without attributes, the empty string; the second `id` wins. -/
theorem extractFormDetails_mapping_witness :
    IsHiddenInput formPage [0, 1, 0, 0] ∧
      extractFormDetails formPage = .ok [("id", "7"), ("token", "abc"), ("", "")] ∧
      ∃ m, extractFormDetails formPage = .ok m ∧ mapGet "id" m = some "7" :=
  have h0 : IsHiddenInput formPage [0, 1, 0, 0] :=
    (mem_hiddenInputs formPage [0, 1, 0, 0]).mp (by decide)
  ⟨h0, rfl, by
    obtain ⟨m, hm, -, -, hget⟩ := extractFormDetails_mapping formPage ⟨_, h0⟩
    refine ⟨m, hm, (hget "id" "7").mpr ⟨[0, 1, 0, 3, 0],
      (mem_hiddenInputs formPage _).mp (by decide), by decide, ?_, by decide⟩⟩
    intro q hq hn
    have h := (mem_hiddenInputs _ q).mpr hq
    rw [show hiddenInputs formPage = [[0, 1, 0, 0], [0, 1, 0, 1], [0, 1, 0, 3, 0], [0, 1, 0, 4]]
      from by decide] at h
    simp only [List.mem_cons, List.mem_singleton, List.not_mem_nil, or_false] at h
    rcases h with e | e | e | e <;> subst e
    · rfl
    · rfl
    · rfl
    · exact absurd hn (by decide)⟩

/-! ## The candidate extractor -/

theorem forall₂_filter_filterMap {α β : Type} (f : α → Option β) : ∀ l : List α,
    List.Forall₂ (fun a b => f a = some b) (l.filter (fun a => (f a).isSome)) (l.filterMap f)
  | [] => by simp
  | a :: l => by
    cases h : f a with
    | none => simpa [List.filter_cons, List.filterMap_cons, h] using forall₂_filter_filterMap f l
    | some b =>
      simpa [List.filter_cons, List.filterMap_cons, h] using forall₂_filter_filterMap f l

theorem rowURL_isSome_iff (c : HnRCleaner) (doc : Document) (r : Path) :
    (rowURL c doc r).isSome = true ↔
      NinthCellsText doc r "Yes" ∧ ∃ href, FirstMarkerHref doc r href := by
  rw [ninthCellsText_iff]
  constructor
  · intro h
    obtain ⟨url, hu⟩ := Option.isSome_iff_exists.mp h
    obtain ⟨hyes, m, t, as, ks, href, hm, hfirst, hg, hh, -⟩ := rowURL_some c doc r url hu
    exact ⟨hyes, href, m, t, as, ks, hm, hfirst, hg, hh⟩
  · rintro ⟨hyes, href, m, t, as, ks, hm, hfirst, hg, hh⟩
    rw [rowURL_of_first_marker c doc r m t as ks href hyes hm hfirst hg hh]
    rfl

/-- C2, as amended: the output of `extractHnRTitles` has exactly one URL for each visited
row of the history table for which the texts of all the ninth cells below the row, those of
nested tables included, one after the other in document order, are exactly `Yes`, and whose
first element with the marker class carries an `href`, the URL being
`BaseURL + "/" + href`, in the order in which the rows are visited; every row is visited
once, and in document order when the header cells share one grandparent. -/
theorem extractHnRTitles_one_url_per_row (c : HnRCleaner) (doc : Document) :
    ∃ rows : List Path, rows.Nodup ∧ List.Sublist rows (historyRows doc) ∧
      (∀ r, r ∈ rows ↔
        IsHistoryRow doc r ∧ NinthCellsText doc r "Yes" ∧
          ∃ href, FirstMarkerHref doc r href) ∧
      List.Forall₂
        (fun r url => ∃ href, FirstMarkerHref doc r href ∧ url = c.BaseURL ++ "/" ++ href)
        rows (extractHnRTitles c doc) ∧
      (∀ g, parent (parent (find doc docSel headerSel)) = [g] →
        rows.Pairwise (fun a b => before a b = true)) := by
  refine ⟨(historyRows doc).filter (fun r => (rowURL c doc r).isSome),
    (nodup_historyRows doc).filter _, List.filter_sublist _, ?_, ?_, ?_⟩
  · intro r
    rw [List.mem_filter, mem_historyRows, rowURL_isSome_iff]
  · rw [extractHnRTitles_eq]
    refine (forall₂_filter_filterMap (rowURL c doc) (historyRows doc)).imp ?_
    intro r url h
    obtain ⟨-, m, t, as, ks, href, hm, hfirst, hg, hh, hu⟩ := rowURL_some c doc r url h
    exact ⟨href, ⟨m, t, as, ks, hm, hfirst, hg, hh⟩, hu⟩
  · intro g hg
    exact (pairwise_historyRows_single doc g hg).sublist (List.filter_sublist _)

/-- C2, an instance: the two qualifying rows of `twoRowPage`, one table, give two URLs in
document order. -/
theorem extractHnRTitles_one_url_per_row_witness :
    parent (parent (find twoRowPage docSel headerSel)) = [[0, 1, 0, 0]] ∧
      extractHnRTitles cfg twoRowPage =
        ["https://www.fuzer.xyz/t.php?id=1", "https://www.fuzer.xyz/t.php?id=2"] ∧
      ∃ rows : List Path, rows.Pairwise (fun a b => before a b = true) ∧
        List.Forall₂
          (fun r url => ∃ href, FirstMarkerHref twoRowPage r href ∧
            url = cfg.BaseURL ++ "/" ++ href)
          rows (extractHnRTitles cfg twoRowPage) := by
  obtain ⟨rows, -, -, -, hf, hp⟩ := extractHnRTitles_one_url_per_row cfg twoRowPage
  exact ⟨by decide, by decide, rows, hp [0, 1, 0, 0] (by decide), hf⟩

/-- C2 fails as stated: the row of `markedSpanPage` has `Yes` in its ninth cell, which is
the only ninth cell below it, and a link with the marker class and an `href`, yet its URL is
not in the output, because an element with the marker class and no `href` comes first in
the row. -/
theorem extractHnRTitles_misses_marked_link :
    ¬ (∀ (c : HnRCleaner) (doc : Document) (r x m : Path) (as : List (String × String))
        (ks : List Node) (href : String),
        IsHistoryRow doc r → IsOwnNinthCell doc r x → textAt doc x = "Yes" →
        NinthCellsText doc r "Yes" → IsMarker doc r m →
        getNode doc m = some (.element "a" as ks) →
        getAttributeValue "href" as = some href →
        c.BaseURL ++ "/" ++ href ∈ extractHnRTitles c doc) := by
  intro h
  have h1 := h cfg markedSpanPage [0, 1, 0, 0, 1] [0, 1, 0, 0, 1, 8] [0, 1, 0, 0, 1, 0, 1]
    [("class", "threadlink"), ("href", "t.php?id=1")] [.text "title"] "t.php?id=1"
    ((mem_historyRows _ _).mp (by decide)) ⟨8, [], [.text "Yes"], rfl, rfl, by decide⟩
    (by decide) ((ninthCellsText_iff _ _ _).mpr (by decide))
    ((mem_threadLinks _ _ _).mp (by decide)) rfl rfl
  rw [show extractHnRTitles cfg markedSpanPage = [] from by decide] at h1
  exact absurd h1 (List.not_mem_nil _)

/-- The row test reads every ninth cell below the row: the row of `shadowedYesPage` has `Yes`
in its own ninth cell and a first marker with an `href`, and is left out because the table
nested in it has a ninth cell too. -/
theorem extractHnRTitles_shadowed_yes :
    IsHistoryRow shadowedYesPage [0, 1, 0, 0, 1] ∧
      IsOwnNinthCell shadowedYesPage [0, 1, 0, 0, 1] [0, 1, 0, 0, 1, 8] ∧
      textAt shadowedYesPage [0, 1, 0, 0, 1, 8] = "Yes" ∧
      selAttr shadowedYesPage "href" (threadLinks shadowedYesPage [0, 1, 0, 0, 1]) =
        some "t.php?id=1" ∧
      NinthCellsText shadowedYesPage [0, 1, 0, 0, 1] "NoYes" ∧
      extractHnRTitles cfg shadowedYesPage = [] :=
  ⟨(mem_historyRows _ _).mp (by decide), ⟨8, [], [.text "Yes"], rfl, rfl, by decide⟩,
    by decide, by decide, (ninthCellsText_iff _ _ _).mpr (by decide), by decide⟩

/-- The order of the output is the order of the visit, not always the order of the page:
in `nestedPage` the row of the inner table comes after the first row of the outer table,
and its URL comes first. -/
theorem extractHnRTitles_nested_order :
    extractHnRTitles cfg nestedPage =
        ["https://www.fuzer.xyz/t.php?id=2", "https://www.fuzer.xyz/t.php?id=1"] ∧
      rowURL cfg nestedPage [0, 1, 0, 0, 0] = some "https://www.fuzer.xyz/t.php?id=1" ∧
      rowURL cfg nestedPage [0, 1, 0, 0, 1, 0, 0, 0, 1] =
        some "https://www.fuzer.xyz/t.php?id=2" ∧
      before [0, 1, 0, 0, 0] [0, 1, 0, 0, 1, 0, 0, 0, 1] = true :=
  ⟨by decide, by decide, by decide, rfl⟩

theorem rowURL_none_of_ne (c : HnRCleaner) (doc : Document) (r : Path)
    (h : cell9Text doc r ≠ "Yes") : rowURL c doc r = none := by
  rw [rowURL, if_neg h]

/-- No ninth cell of `splitYesPage` holds `Yes`. -/
theorem splitYesPage_own_cells (r x : Path) (hr : IsHistoryRow splitYesPage r)
    (hx : IsOwnNinthCell splitYesPage r x) : textAt splitYesPage x ≠ "Yes" := by
  have hx2 := (mem_ninthCells _ r x).mpr (isNinthCell_of_own (ne_nil_of_isHistoryRow hr) hx)
  have hr2 := (mem_historyRows _ r).mpr hr
  rw [show historyRows splitYesPage =
    [[0, 1, 0, 0, 0], [0, 1, 0, 0, 1], [0, 1, 0, 0, 1, 0, 1, 0, 0]] from by decide] at hr2
  simp only [List.mem_cons, List.mem_singleton, List.not_mem_nil, or_false] at hr2
  rcases hr2 with e | e | e <;> subst e
  · rw [show find splitYesPage [[0, 1, 0, 0, 0]] (.both (.tag "td") (.nthChild 9)) = []
      from by decide] at hx2
    exact absurd hx2 (List.not_mem_nil x)
  · rw [show find splitYesPage [[0, 1, 0, 0, 1]] (.both (.tag "td") (.nthChild 9)) =
      [[0, 1, 0, 0, 1, 0, 1, 0, 0, 8], [0, 1, 0, 0, 1, 8]] from by decide] at hx2
    simp only [List.mem_cons, List.mem_singleton, List.not_mem_nil, or_false] at hx2
    rcases hx2 with e | e <;> subst e <;> decide
  · rw [show find splitYesPage [[0, 1, 0, 0, 1, 0, 1, 0, 0]] (.both (.tag "td") (.nthChild 9)) =
      [[0, 1, 0, 0, 1, 0, 1, 0, 0, 8]] from by decide] at hx2
    simp only [List.mem_singleton] at hx2
    subst hx2
    decide

/-- C9, as amended: a row of the history table for which the texts of all the ninth cells
below the row, those of nested tables included, one after the other in document order, are
not exactly `Yes` adds no URL, whatever links it has: the callback leaves the collected URLs
as they are for it, and the output is that of the visit of the other rows alone. -/
theorem extractHnRTitles_skips_other_rows (c : HnRCleaner) (doc : Document) (r : Path)
    (hr : IsHistoryRow doc r) (h9 : ¬ NinthCellsText doc r "Yes") :
    (∀ hrefs, rowStep c doc hrefs r = hrefs) ∧
      ∃ pre post, historyRows doc = pre ++ r :: post ∧ r ∉ pre ++ post ∧
        extractHnRTitles c doc = eachRow c doc (pre ++ post) [] := by
  have hn := rowURL_none_of_ne c doc r (fun e => h9 ((ninthCellsText_iff doc r "Yes").mpr e))
  constructor
  · intro hrefs
    rw [rowStep_eq, hn]
    simp
  · obtain ⟨pre, post, hrows⟩ := List.append_of_mem ((mem_historyRows doc r).mpr hr)
    refine ⟨pre, post, hrows, ?_, ?_⟩
    · have hnd := nodup_historyRows doc
      rw [hrows] at hnd
      have h1 := List.nodup_middle.mp hnd
      exact (List.nodup_cons.mp h1).1
    · rw [extractHnRTitles, hrows, eachRow_eq, eachRow_eq]
      simp [List.filterMap_append, List.filterMap_cons, hn]

/-- C9, two instances: in `mixedPage` the row with `yes` and the row with ` Yes ` have a
link with the marker class and an `href`, and add nothing. -/
theorem extractHnRTitles_skips_other_rows_witness :
    NinthCellsText mixedPage [0, 1, 0, 0, 1] "yes" ∧
      NinthCellsText mixedPage [0, 1, 0, 0, 3] " Yes " ∧
      selAttr mixedPage "href" (threadLinks mixedPage [0, 1, 0, 0, 1]) = some "t.php?id=1" ∧
      selAttr mixedPage "href" (threadLinks mixedPage [0, 1, 0, 0, 3]) = some "t.php?id=3" ∧
      (∀ hrefs, rowStep cfg mixedPage hrefs [0, 1, 0, 0, 1] = hrefs) ∧
      (∀ hrefs, rowStep cfg mixedPage hrefs [0, 1, 0, 0, 3] = hrefs) ∧
      extractHnRTitles cfg mixedPage = ["https://www.fuzer.xyz/t.php?id=2"] :=
  ⟨(ninthCellsText_iff _ _ _).mpr (by decide), (ninthCellsText_iff _ _ _).mpr (by decide),
    by decide, by decide,
    (extractHnRTitles_skips_other_rows cfg mixedPage [0, 1, 0, 0, 1]
      ((mem_historyRows _ _).mp (by decide))
      (fun h => absurd ((ninthCellsText_iff _ _ _).mp h) (by decide))).1,
    (extractHnRTitles_skips_other_rows cfg mixedPage [0, 1, 0, 0, 3]
      ((mem_historyRows _ _).mp (by decide))
      (fun h => absurd ((ninthCellsText_iff _ _ _).mp h) (by decide))).1,
    by decide⟩

/-- C9 fails as stated: the ninth cell of the row of `splitYesPage` holds `s`, not `Yes`,
yet the row adds its URL, because the row test reads the ninth cell `Ye` of the table
nested in the row before it. -/
theorem extractHnRTitles_reads_nested_cells :
    ¬ (∀ (c : HnRCleaner) (doc : Document) (r : Path),
        IsHistoryRow doc r → (∀ x, IsOwnNinthCell doc r x → textAt doc x ≠ "Yes") →
        ∀ hrefs, rowStep c doc hrefs r = hrefs) ∧
      IsOwnNinthCell splitYesPage [0, 1, 0, 0, 1] [0, 1, 0, 0, 1, 8] ∧
      textAt splitYesPage [0, 1, 0, 0, 1, 8] = "s" ∧
      NinthCellsText splitYesPage [0, 1, 0, 0, 1] "Yes" ∧
      extractHnRTitles cfg splitYesPage = ["https://www.fuzer.xyz/t.php?id=1"] := by
  refine ⟨?_, ⟨8, [], [.text "s"], rfl, rfl, by decide⟩, by decide,
    (ninthCellsText_iff _ _ _).mpr (by decide), by decide⟩
  intro h
  have h1 := h cfg splitYesPage [0, 1, 0, 0, 1] ((mem_historyRows _ _).mp (by decide))
    (fun x hx => splitYesPage_own_cells _ x ((mem_historyRows _ _).mp (by decide)) hx) []
  rw [show rowStep cfg splitYesPage [] [0, 1, 0, 0, 1] = ["https://www.fuzer.xyz/t.php?id=1"]
    from by decide] at h1
  cases h1

theorem extractHnRTitles_nil_of_no_row (c : HnRCleaner) (doc : Document)
    (hzero : ∀ r, IsHistoryRow doc r → NinthCellsText doc r "Yes" →
      ∀ m t as ks, IsMarker doc r m → getNode doc m = some (.element t as ks) →
        getAttributeValue "href" as = none) :
    extractHnRTitles c doc = [] := by
  rw [extractHnRTitles_eq]
  have hall : ∀ r ∈ historyRows doc, rowURL c doc r = none := by
    intro r hr
    cases hu : rowURL c doc r with
    | none => rfl
    | some url =>
      obtain ⟨hyes, m, t, as, ks, href, hm, -, hg, hh, -⟩ := rowURL_some c doc r url hu
      rw [hzero r ((mem_historyRows doc r).mp hr) ((ninthCellsText_iff doc r "Yes").mpr hyes)
        m t as ks hm hg] at hh
      cases hh
  generalize historyRows doc = l at hall
  induction l with
  | nil => rfl
  | cons a l ih =>
    rw [List.filterMap_cons, hall a (List.mem_cons_self _ _)]
    exact ih (fun r hr => hall r (List.mem_cons_of_mem _ hr))

/-! ## The driver -/

theorem passBlocks_count {σ : Type} (w : World σ) (c : HnRCleaner) :
    ∀ (titles : List String) (s : σ),
    ((passBlocks w c s titles).map Pass.deletedCount).sum = succeededCount w c s titles
  | [], s => by simp [passBlocks, succeededCount]
  | t :: ts, s => by
    have ih := passBlocks_count w c ts (candidate w c t s).world
    simp only [succeededCount] at ih ⊢
    simp only [passBlocks, List.map_cons, List.sum_cons, List.countP_cons, ih]
    rcases candidate_cases w c t s with ⟨-, h, -⟩ | ⟨-, h, -⟩
    · simp [h, Nat.add_comm]
    · simp [h]

theorem passBlocks_forall₂ {σ : Type} (w : World σ) (c : HnRCleaner) :
    ∀ (titles : List String) (s : σ),
    List.Forall₂
      (fun title b => ∃ sI, b = candidate w c title sI ∧
        (b.deletedCount = 1 ↔ StepsSucceed w c title sI) ∧
        (b.deletedCount = 0 ↔ ¬ StepsSucceed w c title sI) ∧
        ∃ rest, b.events = .proxyGet (proxyURL w c title) :: rest)
      titles (passBlocks w c s titles)
  | [], _ => List.Forall₂.nil
  | t :: ts, s => by
    refine List.Forall₂.cons ⟨s, rfl, ?_⟩ (passBlocks_forall₂ w c ts _)
    rcases candidate_cases w c t s with ⟨h1, h2, -, h3⟩ | ⟨h1, h2, -, h3⟩
    · exact ⟨Iff.intro (fun _ => h1) (fun _ => h2),
        Iff.intro (fun h => by rw [h2] at h; cases h) (fun h => absurd h1 h), h3⟩
    · exact ⟨Iff.intro (fun h => by rw [h2] at h; cases h) (fun h => absurd h h1),
        Iff.intro (fun _ => h1) (fun _ => h2), h3⟩

theorem passBlocks_notifications {σ : Type} (w : World σ) (c : HnRCleaner) :
    ∀ (titles : List String) (s : σ),
    ∀ m ∈ notifications ((passBlocks w c s titles).map Pass.events).flatten,
      m.data.head? = some 'E'
  | [], _ => by simp [passBlocks, notifications]
  | t :: ts, s => by
    intro m hm
    simp only [passBlocks, List.map_cons, List.flatten_cons, notifications_append,
      List.mem_append] at hm
    rcases hm with hm | hm
    · rcases candidate_cases w c t s with ⟨-, -, h, -⟩ | ⟨-, -, ⟨msg, h, hE⟩, -⟩
      · rw [h] at hm
        exact absurd hm (List.not_mem_nil m)
      · rw [h, List.mem_singleton] at hm
        rw [hm]
        exact hE
    · exact passBlocks_notifications w c ts _ m hm

/-- What `cleanHnRTorrents` does once the list page yields candidates. -/
theorem cleanHnRTorrents_nonempty {σ : Type} (w : World σ) (c : HnRCleaner) (s s0 : σ)
    (doc : Document) (e0 : List Event)
    (hfetch : fetchPageContent w c (snatchlistURL c) s = (.ok doc, e0, s0))
    (hne : extractHnRTitles c doc ≠ []) :
    (cleanHnRTorrents w c s).1 = none ∧
    ∃ sEnd, (cleanHnRTorrents w c s).2.1 =
      e0 ++ ((passBlocks w c s0 (extractHnRTitles c doc)).map Pass.events).flatten ++
        (logToTelegram w c (summaryMsg (succeededCount w c s0 (extractHnRTitles c doc)))
          sEnd).1 ++
        [.logLine (summaryMsg (succeededCount w c s0 (extractHnRTitles c doc)))] := by
  have hlen : ¬ (extractHnRTitles c doc).length = 0 := fun e => hne (List.length_eq_zero.mp e)
  have hp := processTitles_eq w c (extractHnRTitles c doc) ⟨0, [], s0⟩
  have hcount : (processTitles w c ⟨0, [], s0⟩ (extractHnRTitles c doc)).deletedCount =
      succeededCount w c s0 (extractHnRTitles c doc) := by
    rw [hp]
    simp [passBlocks_count]
  have hevents : (processTitles w c ⟨0, [], s0⟩ (extractHnRTitles c doc)).events =
      ((passBlocks w c s0 (extractHnRTitles c doc)).map Pass.events).flatten := by
    rw [hp]
    simp
  unfold cleanHnRTorrents
  rw [hfetch]
  simp only [if_neg hlen]
  rw [hcount, hevents]
  exact ⟨trivial, _, rfl⟩

/-- C1: on a non-empty candidate list `cleanHnRTorrents` processes every candidate once, in
list order, each with the same five steps from the state of the world the one before it
left, whatever the outcomes of the others; the trace of the pass is the list fetch, the
traces of the candidates and the summary; the summary is
`HnR cleanup completed. Deleted k warnings.` with `k` the number of candidates for which all
five steps succeeded; and in a world whose answers do not depend on its state, what the
processing of a candidate shows is that of the candidate processed alone. -/
theorem cleanHnRTorrents_isolates_candidates {σ : Type} (w : World σ) (c : HnRCleaner)
    (s s0 : σ) (doc : Document) (e0 : List Event)
    (hfetch : fetchPageContent w c (snatchlistURL c) s = (.ok doc, e0, s0))
    (hne : extractHnRTitles c doc ≠ []) :
    (cleanHnRTorrents w c s).1 = none ∧
    List.Forall₂
      (fun title b => ∃ sI, b = candidate w c title sI ∧
        (b.deletedCount = 1 ↔ StepsSucceed w c title sI) ∧
        (b.deletedCount = 0 ↔ ¬ StepsSucceed w c title sI) ∧
        ∃ rest, b.events = .proxyGet (proxyURL w c title) :: rest)
      (extractHnRTitles c doc) (passBlocks w c s0 (extractHnRTitles c doc)) ∧
    (∃ sEnd, (cleanHnRTorrents w c s).2.1 =
      e0 ++ ((passBlocks w c s0 (extractHnRTitles c doc)).map Pass.events).flatten ++
        (logToTelegram w c (summaryMsg (succeededCount w c s0 (extractHnRTitles c doc)))
          sEnd).1 ++
        [.logLine (summaryMsg (succeededCount w c s0 (extractHnRTitles c doc)))]) ∧
    (notifications (cleanHnRTorrents w c s).2.1).getLast? =
      some ("HnR cleanup completed. Deleted " ++
        toString (succeededCount w c s0 (extractHnRTitles c doc)) ++ " warnings.") ∧
    (Stateless w →
      (passBlocks w c s0 (extractHnRTitles c doc)).map Pass.outcome =
        (extractHnRTitles c doc).map (fun title => (candidate w c title s0).outcome)) := by
  obtain ⟨hret, sEnd, htrace⟩ := cleanHnRTorrents_nonempty w c s s0 doc e0 hfetch hne
  refine ⟨hret, passBlocks_forall₂ w c _ s0, ⟨sEnd, htrace⟩, ?_,
    fun hw => passBlocks_stateless hw c s0 _ s0⟩
  rw [htrace]
  simp only [notifications_append, logToTelegram_notifications]
  simp [notifications, summaryMsg]

/-- C1, the scenario of the specification: two candidates, the first deleted, the second
failing at the extraction of the form. -/
theorem cleanHnRTorrents_isolates_candidates_witness :
    extractHnRTitles cfg twoRowPage =
        ["https://www.fuzer.xyz/t.php?id=1", "https://www.fuzer.xyz/t.php?id=2"] ∧
      (passBlocks (exampleWorld twoRowPage ⟨"", 200, ""⟩) cfg ()
        (extractHnRTitles cfg twoRowPage)).map Pass.deletedCount = [1, 0] ∧
      extractFormDetails emptyFormPage = .error "no form details found" ∧
      (notifications (cleanHnRTorrents (exampleWorld twoRowPage ⟨"", 200, ""⟩) cfg ()).2.1).getLast?
        = some "HnR cleanup completed. Deleted 1 warnings." :=
  ⟨by decide, by decide, rfl,
    (cleanHnRTorrents_isolates_candidates (exampleWorld twoRowPage ⟨"", 200, ""⟩) cfg () ()
      twoRowPage _ rfl (by decide)).2.2.2.1.trans (by decide)⟩

theorem processTitle_link_error {σ : Type} (w : World σ) (c : HnRCleaner) (st : Pass σ)
    (title : String) (doc : Document) (e1 : List Event) (s1 : σ) (err : String)
    (hf : fetchPageContent w c title st.world = (.ok doc, e1, s1))
    (hl : extractDeleteLink c doc = .error err) :
    processTitle w c st title =
      reportAndContinue w c st e1 s1
        ("Error extracting delete link from " ++ title ++ ": " ++ err) := by
  simp [processTitle, hf, hl]

/-- C4: on a detail page where no `a` element whose trimmed text is the delete label carries
an `href` (in particular when there is no such element), `extractDeleteLink` fails with the
`not found` error; the driver then leaves the counter as it is, sends nothing more through
the proxy for that candidate (no fetch of a delete page, no delete request), reports the
error to the log service and goes on with the next candidate. -/
theorem extractDeleteLink_not_found_skips (c : HnRCleaner) (doc : Document)
    (h : ∀ p as ks, getNode doc p = some (.element "a" as ks) →
      trimSpace (nodesText ks) = deleteLabel → getAttributeValue "href" as = none) :
    extractDeleteLink c doc = .error "no 'מחק' link found" ∧
    ∀ {σ : Type} (w : World σ) (st : Pass σ) (title : String) (e1 : List Event) (s1 : σ),
      fetchPageContent w c title st.world = (.ok doc, e1, s1) →
      (processTitle w c st title).deletedCount = st.deletedCount ∧
      (∃ evs, (processTitle w c st title).events = st.events ++ evs ∧
        proxyCalls evs = [.proxyGet (proxyURL w c title)] ∧
        notifications evs =
          ["Error extracting delete link from " ++ title ++ ": " ++ "no 'מחק' link found"]) ∧
      ∀ rest, processTitles w c st (title :: rest) =
        processTitles w c (processTitle w c st title) rest := by
  have herr := extractDeleteLink_error c doc h
  refine ⟨herr, ?_⟩
  intro σ w st title e1 s1 hf
  have hpt := processTitle_link_error w c st title doc e1 s1 _ hf herr
  refine ⟨by rw [hpt]; rfl,
    ⟨e1 ++ (logToTelegram w c
        ("Error extracting delete link from " ++ title ++ ": " ++ "no 'מחק' link found") s1).1 ++
      [.logLine ("Error extracting delete link from " ++ title ++ ": " ++
        "no 'מחק' link found")], ?_, ?_, ?_⟩,
    fun _ => rfl⟩
  · rw [hpt]
    simp [reportAndContinue]
  · rw [proxyCalls_append, proxyCalls_append, logToTelegram_proxyCalls, fetch_events_of_eq hf]
    rfl
  · rw [notifications_append, notifications_append, logToTelegram_notifications,
      fetch_events_of_eq hf]
    rfl

/-- C4, an instance: `plainPage` has no link with the delete label; the candidate served
with it is skipped after its detail fetch. -/
theorem extractDeleteLink_not_found_skips_witness :
    fetchPageContent (exampleWorld twoRowPage ⟨"", 200, ""⟩) cfg "https://www.fuzer.xyz/t.php?id=9"
        () = (.ok plainPage,
          [.proxyGet "http://fuzer-service:8080/?url=https://www.fuzer.xyz/t.php?id=9"], ()) ∧
      extractDeleteLink cfg plainPage = .error "no 'מחק' link found" ∧
      (processTitle (exampleWorld twoRowPage ⟨"", 200, ""⟩) cfg ⟨3, [], ()⟩
        "https://www.fuzer.xyz/t.php?id=9").deletedCount = 3 :=
  have hplain : ∀ p as ks, getNode plainPage p = some (.element "a" as ks) →
      trimSpace (nodesText ks) = deleteLabel → getAttributeValue "href" as = none := by
    intro p as ks hp ht
    have hm := (mem_deleteLinks plainPage p).mpr ⟨as, ks, hp, ht⟩
    rw [show deleteLinks plainPage = [] from by decide] at hm
    exact absurd hm (List.not_mem_nil p)
  ⟨rfl, (extractDeleteLink_not_found_skips cfg plainPage hplain).1,
    ((extractDeleteLink_not_found_skips cfg plainPage hplain).2
      (exampleWorld twoRowPage ⟨"", 200, ""⟩) ⟨3, [], ()⟩ "https://www.fuzer.xyz/t.php?id=9"
      _ () rfl).1⟩

theorem sendDeleteRequest_envelope {σ : Type} (w : World σ) (c : HnRCleaner)
    (formData : FormMap) (s s3 : σ) (response : ProxyResponse)
    (hreq : w.newRequestErr (proxyURL w c (postURL c)) = none)
    (hpost : w.httpPost (proxyURL w c (postURL c)) (w.marshal formData) s =
      (.envelope response, s3))
    (hcode : response.ErrorCode ≠ 200) :
    sendDeleteRequest w c formData s =
      (some ("error in POST request: " ++ response.Error),
        [.proxyPost (proxyURL w c (postURL c)) (w.marshal formData)], s3) := by
  simp [sendDeleteRequest, hreq, hpost, hcode]

/-- C6: when the proxy answers the delete request with an envelope whose status code is not
200, `sendDeleteRequest` returns an error whose text contains the message of the envelope,
and the driver does not increment the counter for the candidate that reached the
submission. -/
theorem sendDeleteRequest_rejected {σ : Type} (w : World σ) (c : HnRCleaner)
    (formData : FormMap) (s s3 : σ) (response : ProxyResponse)
    (hreq : w.newRequestErr (proxyURL w c (postURL c)) = none)
    (hpost : w.httpPost (proxyURL w c (postURL c)) (w.marshal formData) s =
      (.envelope response, s3))
    (hcode : response.ErrorCode ≠ 200) :
    ∃ err, (sendDeleteRequest w c formData s).1 = some err ∧
      response.Error.data <:+: err.data ∧
      containsChars response.Error.data err.data = true ∧
      ∀ (st : Pass σ) (title : String) (pageDoc : Document) (e1 : List Event) (s1 : σ)
        (deleteLink : String) (deletePageDoc : Document) (e2 : List Event),
        fetchPageContent w c title st.world = (.ok pageDoc, e1, s1) →
        extractDeleteLink c pageDoc = .ok deleteLink →
        fetchPageContent w c deleteLink s1 = (.ok deletePageDoc, e2, s) →
        extractFormDetails deletePageDoc = .ok formData →
        (processTitle w c st title).deletedCount = st.deletedCount ∧
        notifications (candidate w c title st.world).events =
          ["Error sending delete request for " ++ deleteLink ++ ": " ++ err] := by
  have hs := sendDeleteRequest_envelope w c formData s s3 response hreq hpost hcode
  refine ⟨"error in POST request: " ++ response.Error, by rw [hs],
    ⟨"error in POST request: ".data, [], by simp⟩, ?_, ?_⟩
  · rw [String.data_append]
    exact containsChars_append _ _
  · intro st title pageDoc e1 s1 deleteLink deletePageDoc e2 h1 h2 h3 h4
    have hc : candidate w c title st.world =
        reportAndContinue w c ⟨0, [], st.world⟩
          (e1 ++ e2 ++ [.proxyPost (proxyURL w c (postURL c)) (w.marshal formData)]) s3
          ("Error sending delete request for " ++ deleteLink ++ ": " ++
            ("error in POST request: " ++ response.Error)) := by
      simp [candidate, processTitle, h1, h2, h3, h4, hs]
    constructor
    · rw [processTitle_eq, hc]
      rfl
    · rw [hc]
      refine (report_fresh w c st.world _ s3 _ ?_).2.1
      rw [notifications_append, notifications_append, fetch_events_of_eq h1,
        fetch_events_of_eq h3]
      rfl

/-- C6, the instance of the specification: status 500 with the message `server error`. -/
theorem sendDeleteRequest_rejected_witness :
    (sendDeleteRequest (exampleWorld twoRowPage ⟨"server error", 500, ""⟩) cfg
        [("id", "7")] ()).1 = some "error in POST request: server error" ∧
      (∃ err, (sendDeleteRequest (exampleWorld twoRowPage ⟨"server error", 500, ""⟩) cfg
        [("id", "7")] ()).1 = some err ∧ "server error".data <:+: err.data) ∧
      (processTitle (exampleWorld twoRowPage ⟨"server error", 500, ""⟩) cfg ⟨0, [], ()⟩
        "https://www.fuzer.xyz/t.php?id=1").deletedCount = 0 := by
  obtain ⟨err, h1, h2, -, -⟩ := sendDeleteRequest_rejected
    (exampleWorld twoRowPage ⟨"server error", 500, ""⟩) cfg [("id", "7")] () ()
    ⟨"server error", 500, ""⟩ rfl rfl (by decide)
  exact ⟨rfl, ⟨err, h1, h2⟩, by decide⟩

theorem cleanHnRTorrents_empty {σ : Type} (w : World σ) (c : HnRCleaner) (s s0 : σ)
    (doc : Document) (e0 : List Event)
    (hfetch : fetchPageContent w c (snatchlistURL c) s = (.ok doc, e0, s0))
    (hnil : extractHnRTitles c doc = []) :
    cleanHnRTorrents w c s =
      (none, e0 ++ (logToTelegram w c "No HnR torrents found." s0).1 ++
          [.logLine "No HnR torrents found."],
        (logToTelegram w c "No HnR torrents found." s0).2) := by
  unfold cleanHnRTorrents
  rw [hfetch]
  simp [hnil]

/-- C7, as amended: on a list page where no row of the history table has both `Yes` as
the texts of all the ninth cells below it, those of nested tables included, one after the
other in document order, and an element with the marker class and an `href`,
`extractHnRTitles` returns the empty list, and `cleanHnRTorrents` posts the one
notification `No HnR torrents found.`, sends nothing through the proxy but the fetch of the
list page (no candidate is processed) and returns no error. -/
theorem cleanHnRTorrents_no_candidates (c : HnRCleaner) (doc : Document)
    (hzero : ∀ r, IsHistoryRow doc r → NinthCellsText doc r "Yes" →
      ∀ m t as ks, IsMarker doc r m → getNode doc m = some (.element t as ks) →
        getAttributeValue "href" as = none) :
    extractHnRTitles c doc = [] ∧
    ∀ {σ : Type} (w : World σ) (s s0 : σ) (e0 : List Event),
      fetchPageContent w c (snatchlistURL c) s = (.ok doc, e0, s0) →
      (cleanHnRTorrents w c s).1 = none ∧
      notifications (cleanHnRTorrents w c s).2.1 = ["No HnR torrents found."] ∧
      proxyCalls (cleanHnRTorrents w c s).2.1 = [.proxyGet (proxyURL w c (snatchlistURL c))] := by
  have hnil := extractHnRTitles_nil_of_no_row c doc hzero
  refine ⟨hnil, ?_⟩
  intro σ w s s0 e0 hfetch
  rw [cleanHnRTorrents_empty w c s s0 doc e0 hfetch hnil]
  refine ⟨rfl, ?_, ?_⟩
  · show notifications (e0 ++ _ ++ _) = _
    rw [notifications_append, notifications_append, logToTelegram_notifications,
      fetch_events_of_eq hfetch]
    rfl
  · show proxyCalls (e0 ++ _ ++ _) = _
    rw [proxyCalls_append, proxyCalls_append, logToTelegram_proxyCalls,
      fetch_events_of_eq hfetch]
    rfl

/-- C7, an instance: no row of `noCandidatePage` qualifies. -/
theorem cleanHnRTorrents_no_candidates_witness :
    extractHnRTitles cfg noCandidatePage = [] ∧
      notifications (cleanHnRTorrents (exampleWorld noCandidatePage ⟨"", 200, ""⟩) cfg ()).2.1 =
        ["No HnR torrents found."] ∧
      proxyCalls (cleanHnRTorrents (exampleWorld noCandidatePage ⟨"", 200, ""⟩) cfg ()).2.1 =
        [.proxyGet "http://fuzer-service:8080/?url=https://www.fuzer.xyz/snatchlist.php?u=14815&type=hnr&order=hnr&sort=desc"] :=
  have hzero : ∀ r, IsHistoryRow noCandidatePage r → NinthCellsText noCandidatePage r "Yes" →
      ∀ m t as ks, IsMarker noCandidatePage r m →
        getNode noCandidatePage m = some (.element t as ks) →
        getAttributeValue "href" as = none := by
    intro r hr h9t m t as ks hm _
    have h9 := (ninthCellsText_iff _ r "Yes").mp h9t
    have hr2 := (mem_historyRows _ r).mpr hr
    have hm2 := (mem_threadLinks _ r m).mpr hm
    rw [show historyRows noCandidatePage =
      [[0, 1, 0, 0, 0], [0, 1, 0, 0, 1], [0, 1, 0, 0, 2], [0, 1, 0, 0, 3]] from by decide]
      at hr2
    simp only [List.mem_cons, List.mem_singleton, List.not_mem_nil, or_false] at hr2
    rcases hr2 with e | e | e | e <;> subst e
    · exact absurd h9 (by decide)
    · exact absurd h9 (by decide)
    · exact absurd h9 (by decide)
    · rw [show threadLinks noCandidatePage [0, 1, 0, 0, 3] = [] from by decide] at hm2
      exact absurd hm2 (List.not_mem_nil m)
  ⟨(cleanHnRTorrents_no_candidates cfg noCandidatePage hzero).1,
    ((cleanHnRTorrents_no_candidates cfg noCandidatePage hzero).2
      (exampleWorld noCandidatePage ⟨"", 200, ""⟩) () () _ rfl).2.1,
    ((cleanHnRTorrents_no_candidates cfg noCandidatePage hzero).2
      (exampleWorld noCandidatePage ⟨"", 200, ""⟩) () () _ rfl).2.2⟩

/-- C7 fails as stated: no row of `splitYesPage` has `Yes` in its ninth cell, so no row
qualifies, yet `extractHnRTitles` returns a candidate, because the row test reads the ninth
cell of the nested table together with that of the row; the driver processes the candidate
and posts the summary instead of `No HnR torrents found.`. -/
theorem cleanHnRTorrents_candidate_from_nested_cells :
    ¬ (∀ (c : HnRCleaner) (doc : Document),
        (∀ r x, IsHistoryRow doc r → IsOwnNinthCell doc r x → textAt doc x ≠ "Yes") →
        extractHnRTitles c doc = []) ∧
      extractHnRTitles cfg splitYesPage = ["https://www.fuzer.xyz/t.php?id=1"] ∧
      notifications (cleanHnRTorrents (exampleWorld splitYesPage ⟨"", 200, ""⟩) cfg ()).2.1 =
        ["HnR cleanup completed. Deleted 1 warnings."] := by
  refine ⟨?_, by decide, by decide⟩
  intro h
  have h1 := h cfg splitYesPage (fun r x hr hx => splitYesPage_own_cells r x hr hx)
  rw [show extractHnRTitles cfg splitYesPage = ["https://www.fuzer.xyz/t.php?id=1"]
    from by decide] at h1
  cases h1

theorem ne_summaryMsg_of_head {m : String} {ch : Char} (h : m.data.head? = some ch)
    (hch : ch ≠ 'H') (n : Nat) : m ≠ summaryMsg n := by
  intro e
  rw [e, summaryMsg_head] at h
  exact hch (Option.some.inj h).symm

/-- C8, as amended: after a successful fetch of the list page, a pass over a non-empty
candidate list posts exactly one summary, `HnR cleanup completed. Deleted N warnings.` with
`N` the number of candidates deleted, as its last notification; a pass over an empty
candidate list posts `No HnR torrents found.` and no summary. -/
theorem cleanHnRTorrents_one_summary {σ : Type} (w : World σ) (c : HnRCleaner) (s s0 : σ)
    (doc : Document) (e0 : List Event)
    (hfetch : fetchPageContent w c (snatchlistURL c) s = (.ok doc, e0, s0)) :
    (extractHnRTitles c doc ≠ [] →
      ∃ pre, notifications (cleanHnRTorrents w c s).2.1 =
          pre ++ [summaryMsg (succeededCount w c s0 (extractHnRTitles c doc))] ∧
        ∀ m ∈ pre, ∀ n, m ≠ summaryMsg n) ∧
    (extractHnRTitles c doc = [] →
      notifications (cleanHnRTorrents w c s).2.1 = ["No HnR torrents found."] ∧
      ∀ n, summaryMsg n ∉ notifications (cleanHnRTorrents w c s).2.1) := by
  constructor
  · intro hne
    obtain ⟨-, sEnd, htrace⟩ := cleanHnRTorrents_nonempty w c s s0 doc e0 hfetch hne
    refine ⟨notifications
      ((passBlocks w c s0 (extractHnRTitles c doc)).map Pass.events).flatten, ?_, ?_⟩
    · rw [htrace]
      simp only [notifications_append, logToTelegram_notifications,
        fetch_events_of_eq hfetch]
      simp [notifications]
    · intro m hm n
      exact ne_summaryMsg_of_head (passBlocks_notifications w c _ s0 m hm) (by decide) n
  · intro hnil
    have hn : notifications (cleanHnRTorrents w c s).2.1 = ["No HnR torrents found."] := by
      rw [cleanHnRTorrents_empty w c s s0 doc e0 hfetch hnil]
      show notifications (e0 ++ _ ++ _) = _
      rw [notifications_append, notifications_append, logToTelegram_notifications,
        fetch_events_of_eq hfetch]
      rfl
    refine ⟨hn, ?_⟩
    intro n hmem
    rw [hn, List.mem_singleton] at hmem
    exact @ne_summaryMsg_of_head "No HnR torrents found." 'N' rfl (by decide) n hmem.symm

/-- C8, two instances: the pass over `twoRowPage` ends with its one summary; the pass over
`noCandidatePage` posts no summary. -/
theorem cleanHnRTorrents_one_summary_witness :
    notifications (cleanHnRTorrents (exampleWorld twoRowPage ⟨"", 200, ""⟩) cfg ()).2.1 =
        ["Error extracting form details from https://www.fuzer.xyz/del.php?id=2: no form details found",
          "HnR cleanup completed. Deleted 1 warnings."] ∧
      (∃ pre, notifications (cleanHnRTorrents (exampleWorld twoRowPage ⟨"", 200, ""⟩) cfg ()).2.1 =
          pre ++ [summaryMsg 1] ∧ ∀ m ∈ pre, ∀ n, m ≠ summaryMsg n) ∧
      notifications (cleanHnRTorrents (exampleWorld noCandidatePage ⟨"", 200, ""⟩) cfg ()).2.1 =
        ["No HnR torrents found."] :=
  ⟨by decide,
    (cleanHnRTorrents_one_summary (exampleWorld twoRowPage ⟨"", 200, ""⟩) cfg () ()
      twoRowPage _ rfl).1 (by decide),
    ((cleanHnRTorrents_one_summary (exampleWorld noCandidatePage ⟨"", 200, ""⟩) cfg () ()
      noCandidatePage _ rfl).2 (by decide)).1⟩

/-- C8 fails as stated: the list page is fetched and has no candidate, and the pass posts
no summary `HnR cleanup completed. Deleted N warnings.` at all. -/
theorem cleanHnRTorrents_empty_without_summary :
    fetchPageContent (exampleWorld noCandidatePage ⟨"", 200, ""⟩) cfg (snatchlistURL cfg) () =
        (.ok noCandidatePage,
          [.proxyGet "http://fuzer-service:8080/?url=https://www.fuzer.xyz/snatchlist.php?u=14815&type=hnr&order=hnr&sort=desc"],
          ()) ∧
      (cleanHnRTorrents (exampleWorld noCandidatePage ⟨"", 200, ""⟩) cfg ()).1 = none ∧
      notifications (cleanHnRTorrents (exampleWorld noCandidatePage ⟨"", 200, ""⟩) cfg ()).2.1 =
        ["No HnR torrents found."] ∧
      ∀ n, summaryMsg n ∉
        notifications (cleanHnRTorrents (exampleWorld noCandidatePage ⟨"", 200, ""⟩) cfg ()).2.1 := by
  have hn : notifications
      (cleanHnRTorrents (exampleWorld noCandidatePage ⟨"", 200, ""⟩) cfg ()).2.1 =
      ["No HnR torrents found."] := by decide
  refine ⟨rfl, rfl, hn, ?_⟩
  intro n hmem
  rw [hn, List.mem_singleton] at hmem
  have h := summaryMsg_head n
  rw [hmem] at h
  exact absurd h (by decide)

end HnR
